import Mathlib

/-!
Verification of the overlay window-tree core of the BattleTanks engine
(`src/engine/src/overlay/{mod.rs, single_thread.rs}`).

The embedding models:
  * the arena of `WindowBase` nodes owned by `OverlayBase`,
  * `OverlayBase::build_tree` (vertex-range reindexing),
  * `OverlayBase::update_window` and `OverlayBase::update` (geometry
    resolution and vertex/index buffer reconciliation),
  * `Window::child`, `Window::attach_child`, `Window::detach_child` and
    `Overlay::window` (path lookup and tree surgery).

Modelling conventions:
  * `f32` scalars are modelled as exact rationals (`ℚ`); cgmath's
    epsilon-based `approx_eq` is idealized as exact equality.
  * Recursive tree walks take an explicit fuel argument and return
    `none` when the fuel runs out (modelling divergence on cyclic
    arenas); the Rust recursion consumes no fuel, so any terminating
    Rust run corresponds to all sufficiently large fuels.
  * Panics (`assert!`/`panic!`) are modelled as explicit error results
    that leave the state untouched, which is what a panic does to the
    arena.
  * GPU buffer writes are tracked explicitly: `update_window` returns
    the list of (slot, vertex) stores it performs, and `update` records
    whether it re-uploaded the whole vertex buffer or patched slots.
  * The `WindowBase` struct declaration itself is not part of the
    sources; its fields are reconstructed from every access performed by
    `mod.rs` and `single_thread.rs` (name, creation_data, shown, pos,
    size, children, parent, vbo_beg, vbo_end).
-/

namespace Overlay

/-- Mirrors cgmath's `Vector2<T>`. -/
structure Vector2 (α : Type) where
  x : α
  y : α
deriving DecidableEq, Repr

/-- Mirrors cgmath's `Vector3<T>`. -/
structure Vector3 (α : Type) where
  x : α
  y : α
  z : α
deriving DecidableEq, Repr

/-- Mirrors cgmath's `Vector4<T>`. -/
structure Vector4 (α : Type) where
  x : α
  y : α
  z : α
  w : α
deriving DecidableEq, Repr

abbrev Vec2 := Vector2 ℚ
abbrev Vec3 := Vector3 ℚ
abbrev Vec4 := Vector4 ℚ

instance : Add Vec2 := ⟨fun a b => ⟨a.x + b.x, a.y + b.y⟩⟩

/-- Mirrors cgmath's `Vec3::dot`. -/
def dot (a b : Vec3) : ℚ :=
  a.x * b.x + a.y * b.y + a.z * b.z

/-- Mirrors the `VertexData` record of `overlay/mod.rs` (pos, uv, color). -/
structure VertexData where
  pos : Vec2
  uv : Vec2
  color : Vec4
deriving DecidableEq, Repr

/-- Mirrors `Default for VertexData` (`mem::zeroed`). -/
instance : Inhabited VertexData :=
  ⟨{ pos := ⟨0, 0⟩, uv := ⟨0, 0⟩, color := ⟨0, 0, 0, 0⟩ }⟩

/-- Mirrors `WindowParams`: `pos`/`size` are per-axis
(ratio_w, ratio_h, pixel) coefficient vectors; `color`/`texcoord` are the
four per-corner arrays (fields `colorK`/`texcoordK` model `color[K]`arrays
and `texcoord[K]`). -/
structure WindowParams where
  pos : Vector2 Vec3
  size : Vector2 Vec3
  color0 : Vec4
  color1 : Vec4
  color2 : Vec4
  color3 : Vec4
  texcoord0 : Vec2
  texcoord1 : Vec2
  texcoord2 : Vec2
  texcoord3 : Vec2
deriving DecidableEq, Repr

/-- One arena entry, as used by `mod.rs` / `single_thread.rs` (the struct
declaration is reconstructed from its field accesses; `vbo_beg`/`vbo_end`
are quad-valued). -/
structure WindowBase where
  name : List Char
  creation_data : WindowParams
  shown : Bool
  pos : Vec2
  size : Vec2
  children : List Nat
  parent : Option Nat
  vbo_beg : Nat
  vbo_end : Nat
deriving DecidableEq, Repr

instance : Inhabited WindowBase :=
  ⟨{ name := []
     creation_data :=
      { pos := ⟨⟨0, 0, 0⟩, ⟨0, 0, 0⟩⟩
        size := ⟨⟨0, 0, 0⟩, ⟨0, 0, 0⟩⟩
        color0 := ⟨0, 0, 0, 0⟩, color1 := ⟨0, 0, 0, 0⟩
        color2 := ⟨0, 0, 0, 0⟩, color3 := ⟨0, 0, 0, 0⟩
        texcoord0 := ⟨0, 0⟩, texcoord1 := ⟨0, 0⟩
        texcoord2 := ⟨0, 0⟩, texcoord3 := ⟨0, 0⟩ }
     shown := true
     pos := ⟨0, 0⟩
     size := ⟨0, 0⟩
     children := []
     parent := none
     vbo_beg := 0
     vbo_end := 0 }⟩

/-- The CPU-side state of `OverlayBase`. `vbo` tracks the contents of the
GPU vertex buffer (written via `buffer_data` / `MapBuffer`). -/
structure OverlayBase where
  arena : List WindowBase
  indices : List Nat
  vbo : List VertexData
  should_update : List Nat
  should_reindex : Bool
deriving DecidableEq, Repr

/-- Root window index (`const ROOT: usize = 0`). -/
def ROOT : Nat := 0

/-- Mirrors `OverlayBase::window` (`&self.arena[index]`). Out-of-range
access, a panic in Rust, yields the default window; theorems that depend
on an index carry an in-range hypothesis. -/
def window (ovl : OverlayBase) (index : Nat) : WindowBase :=
  ovl.arena.getD index default

/-- Mirrors a store through `OverlayBase::window_mut`. -/
def set_window (ovl : OverlayBase) (index : Nat) (w : WindowBase) : OverlayBase :=
  { ovl with arena := ovl.arena.set index w }

mutual

/-- Mirrors `OverlayBase::build_tree`: pre-order traversal updating the
`vbo_beg`/`vbo_end` fields, assuming the node's own `vbo_beg` is already
correct. -/
def build_tree : Nat → OverlayBase → Nat → Option OverlayBase
  | 0, _, _ => none
  | fuel + 1, ovl, w =>
    match buildChildren fuel ovl ((window ovl w).children) ((window ovl w).vbo_beg + 1) with
    | none => none
    | some (ovl1, prev_end) =>
      some (set_window ovl1 w { window ovl1 w with vbo_end := prev_end })
termination_by structural f => f

/-- The `for i in 0 .. children.len()` loop body of `build_tree`: assigns
`vbo_beg := prev_end` to each child, recurses, and chains `prev_end`
through the siblings. (`build_tree` never modifies any `children` list,
so iterating over the entry snapshot of the list is faithful.) -/
def buildChildren : Nat → OverlayBase → List Nat → Nat → Option (OverlayBase × Nat)
  | 0, _, _, _ => none
  | _ + 1, ovl, [], prev_end => some (ovl, prev_end)
  | fuel + 1, ovl, child :: rest, prev_end =>
    let ovl1 := set_window ovl child { window ovl child with vbo_beg := prev_end }
    match build_tree fuel ovl1 child with
    | none => none
    | some ovl2 => buildChildren fuel ovl2 rest ((window ovl2 child).vbo_end)
termination_by structural f => f

end

mutual

/-- Pre-order traversal of the window tree: the list of arena indices of
the subtree rooted at `w`, in visit order. This is the traversal order
used by `build_tree` and by the full pass of `update_window`. -/
def preorder : Nat → OverlayBase → Nat → Option (List Nat)
  | 0, _, _ => none
  | fuel + 1, ovl, w =>
    match preorderList fuel ovl ((window ovl w).children) with
    | none => none
    | some l => some (w :: l)
termination_by structural f => f

/-- Pre-order traversal of a list of sibling subtrees. -/
def preorderList : Nat → OverlayBase → List Nat → Option (List Nat)
  | 0, _, _ => none
  | _ + 1, _, [] => some []
  | fuel + 1, ovl, c :: rest =>
    match preorder fuel ovl c with
    | none => none
    | some l =>
      match preorderList fuel ovl rest with
      | none => none
      | some ls => some (l ++ ls)
termination_by structural f => f

end

/-- The `new_pos` computation of `OverlayBase::update_window`: degenerate
for hidden windows, parent-relative (pos-offset dot formula) for attached
windows, the pixel-constant (`.z`) components for the parentless root. -/
def newPos (ovl : OverlayBase) (w : WindowBase) : Vec2 :=
  if w.shown = false then ⟨-1, -1⟩
  else
    match w.parent with
    | some parent_index =>
      let parent := window ovl parent_index
      ⟨parent.pos.x + dot w.creation_data.pos.x ⟨parent.size.x, parent.size.y, 1⟩,
       parent.pos.y + dot w.creation_data.pos.y ⟨parent.size.x, parent.size.y, 1⟩⟩
    | none => ⟨w.creation_data.pos.x.z, w.creation_data.pos.y.z⟩

/-- The `new_size` computation of `OverlayBase::update_window`. -/
def newSize (ovl : OverlayBase) (w : WindowBase) : Vec2 :=
  if w.shown = false then ⟨0, 0⟩
  else
    match w.parent with
    | some parent_index =>
      let parent := window ovl parent_index
      ⟨dot w.creation_data.size.x ⟨parent.size.x, parent.size.y, 1⟩,
       dot w.creation_data.size.y ⟨parent.size.x, parent.size.y, 1⟩⟩
    | none => ⟨w.creation_data.size.x.z, w.creation_data.size.y.z⟩

/-- The four corner-vertex stores of `update_window` for one window, in
source order: upper-left, upper-right, bottom-right (params corner 3),
bottom-left (params corner 2), at slots `4*vbo_beg .. 4*vbo_beg+3`. -/
def quadWrites (w : WindowBase) : List (Nat × VertexData) :=
  [(4 * w.vbo_beg,
    { pos := w.pos, uv := w.creation_data.texcoord0, color := w.creation_data.color0 }),
   (4 * w.vbo_beg + 1,
    { pos := w.pos + ⟨w.size.x, 0⟩, uv := w.creation_data.texcoord1, color := w.creation_data.color1 }),
   (4 * w.vbo_beg + 2,
    { pos := w.pos + w.size, uv := w.creation_data.texcoord3, color := w.creation_data.color3 }),
   (4 * w.vbo_beg + 3,
    { pos := w.pos + ⟨0, w.size.y⟩, uv := w.creation_data.texcoord2, color := w.creation_data.color2 })]

mutual

/-- Mirrors `OverlayBase::update_window`: resolves the node's absolute
geometry, stores it back when it changed (cgmath `approx_eq` idealized as
equality), emits the four corner-vertex stores at slots
`4*vbo_beg .. 4*vbo_beg+3`, and recurses into the children when doing a
full pass or when the coordinates changed. Returns the updated arena
state together with the ordered list of (slot, vertex) stores. -/
def update_window : Nat → OverlayBase → Nat → Bool → Option (OverlayBase × List (Nat × VertexData))
  | 0, _, _, _ => none
  | fuel + 1, ovl, window_index, full_update =>
    let w := window ovl window_index
    let new_pos : Vec2 := newPos ovl w
    let new_size : Vec2 := newSize ovl w
    let coord_changed : Bool := ¬(w.pos = new_pos ∧ w.size = new_size)
    let ovl1 :=
      if coord_changed then
        set_window ovl window_index { w with pos := new_pos, size := new_size }
      else ovl
    let writes := quadWrites (window ovl1 window_index)
    if full_update || coord_changed then
      match updateChildren fuel ovl1 ((window ovl1 window_index).children) full_update with
      | none => none
      | some (ovl2, ws) => some (ovl2, writes ++ ws)
    else
      some (ovl1, writes)
termination_by structural f => f

/-- The child-recursion loop of `update_window` (the loop re-reads the
children list from the arena, but `update_window` never modifies any
`children` list, so folding over the snapshot is faithful). -/
def updateChildren : Nat → OverlayBase → List Nat → Bool → Option (OverlayBase × List (Nat × VertexData))
  | 0, _, _, _ => none
  | _ + 1, ovl, [], _ => some (ovl, [])
  | fuel + 1, ovl, c :: rest, full_update =>
    match update_window fuel ovl c full_update with
    | none => none
    | some (ovl1, ws1) =>
      match updateChildren fuel ovl1 rest full_update with
      | none => none
      | some (ovl2, ws2) => some (ovl2, ws1 ++ ws2)
termination_by structural f => f

end

/-- The `for i in 0 .. self.should_update.len()` loop of the partial
branch of `OverlayBase::update` (again, `update_window` never touches
`should_update`, so the snapshot iteration is faithful). -/
def updateDirtyList : Nat → OverlayBase → List Nat → Option (OverlayBase × List (Nat × VertexData))
  | _, ovl, [] => some (ovl, [])
  | fuel, ovl, i :: rest =>
    match update_window fuel ovl i false with
    | none => none
    | some (ovl1, ws1) =>
      match updateDirtyList fuel ovl1 rest with
      | none => none
      | some (ovl2, ws2) => some (ovl2, ws1 ++ ws2)

/-- Applies a list of (slot, vertex) stores to a vertex buffer, in order. -/
def applyWrites (buf : List VertexData) (ws : List (Nat × VertexData)) : List VertexData :=
  ws.foldl (fun b p => b.set p.1 p.2) buf

/-- One quad's six triangle indices (`[0,1,2,0,2,3]` offset by the quad's
base vertex `4*i`), as pushed by the index-extension loop of `update`. -/
def quadIndices (i : Nat) : List Nat :=
  [4 * i, 4 * i + 1, 4 * i + 2, 4 * i, 4 * i + 2, 4 * i + 3]

/-- Mirrors the `while self.indices.len() < indices_len` loop of
`OverlayBase::update`: repeatedly pushes the six indices of quad
`len / 6` until the target length is reached. -/
def extendIndices (indices : List Nat) (target : Nat) : List Nat :=
  if _h : indices.length < target then
    extendIndices (indices ++ quadIndices (indices.length / 6)) target
  else
    indices
termination_by target - indices.length
decreasing_by
  simp only [List.length_append, quadIndices, List.length_cons]
  omega

/-- The index buffer consisting of the full six-index pattern for quads
`0 .. n-1`; the shape `update` (re)establishes. -/
def indicesPattern : Nat → List Nat
  | 0 => []
  | n + 1 => indicesPattern n ++ quadIndices n

/-- What `update` did to the GPU buffers: `uploaded = some data` when the
reindex branch re-uploaded the whole vertex buffer via `buffer_data`;
`partialWrites` are the mapped-buffer stores of the partial branch. -/
structure UpdateEffect where
  uploaded : Option (List VertexData)
  partialWrites : List (Nat × VertexData)
deriving DecidableEq, Repr

/-- Mirrors `OverlayBase::update`. -/
def update (fuel : Nat) (ovl : OverlayBase) : Option (OverlayBase × UpdateEffect) :=
  if ovl.should_reindex = false ∧ ovl.should_update = [] then
    some (ovl, ⟨none, []⟩)
  else if ovl.should_reindex then
    match build_tree fuel ovl ROOT with
    | none => none
    | some ovl1 =>
      let vbo_len := 4 * (window ovl1 ROOT).vbo_end
      match update_window fuel ovl1 ROOT true with
      | none => none
      | some (ovl2, ws) =>
        let vbo_data := applyWrites (List.replicate vbo_len default) ws
        let indices_len := 6 * (window ovl2 ROOT).vbo_end
        let indices2 := extendIndices (ovl2.indices.take indices_len) indices_len
        some ({ ovl2 with
                  vbo := vbo_data
                  indices := indices2
                  should_update := []
                  should_reindex := false },
              ⟨some vbo_data, []⟩)
  else
    match updateDirtyList fuel ovl ovl.should_update with
    | none => none
    | some (ovl2, ws) =>
      some ({ ovl2 with
                vbo := applyWrites ovl.vbo ws
                should_update := []
                should_reindex := false },
            ⟨none, ws⟩)

/-- Splits a path at its first separator occurrence, mirroring
`path.find(sep)` followed by `path.split_at(seperator_pos)`: the second
component still starts with the separator, exactly as in
`single_thread.rs`. Returns `none` when the separator does not occur. -/
def splitAtSep (sep : Char) : List Char → Option (List Char × List Char)
  | [] => none
  | c :: rest =>
    if c = sep then some ([], c :: rest)
    else
      match splitAtSep sep rest with
      | none => none
      | some (a, b) => some (c :: a, b)

/-- The linear scan `for &index in &window.children { if name == ... }`. -/
def findChild (ovl : OverlayBase) : List Nat → List Char → Option Nat
  | [], _ => none
  | c :: rest, nm =>
    if (window ovl c).name = nm then some c else findChild ovl rest nm

/-- Mirrors `Window::child` of `single_thread.rs`: splits the path at the
first `.`; on a match of the head segment it recurses with the *entire
remainder including the leading separator* (`split_at` without skipping
the dot), exactly as the source does. -/
def child : Nat → OverlayBase → Nat → List Char → Option Nat
  | 0, _, _, _ => none
  | fuel + 1, ovl, index, path =>
    match splitAtSep '.' path with
    | some (curr_name, rest_path) =>
      match findChild ovl ((window ovl index).children) curr_name with
      | some c => child fuel ovl c rest_path
      | none => none
    | none => findChild ovl ((window ovl index).children) path

/-- Mirrors `Overlay::window`: `""` and `"."` give the root; a leading
`.` is stripped (once) and the rest resolved via `root().child`. -/
def windowByPath (fuel : Nat) (ovl : OverlayBase) (path : List Char) : Option Nat :=
  if path = [] ∨ path = ['.'] then some ROOT
  else if path.take 1 = ['.'] then child fuel ovl ROOT (path.drop 1)
  else child fuel ovl ROOT path

/-- The panics of `attach_child` / `detach_child`, as an error type (the
panic messages only render window paths). -/
inductive OvlError where
  | diffOverlays
  | alreadyAttached
  | nameCollision
  | detachMismatch
deriving DecidableEq, Repr

/-- The mutation sequence of the success path of `Window::attach_child`:
push the child onto the parent's children, set the child's parent link,
push the child onto `should_update`, raise `should_reindex`. -/
def attachSucc (ovl : OverlayBase) (self_index child_index : Nat) : OverlayBase :=
  let s1 := set_window ovl self_index
    { window ovl self_index with
        children := (window ovl self_index).children ++ [child_index] }
  let s2 := set_window s1 child_index
    { window s1 child_index with parent := some self_index }
  { s2 with
      should_update := s2.should_update ++ [child_index]
      should_reindex := true }

/-- Mirrors `Window::attach_child`. `same_overlay` is the result of the
pointer-equality assertion between the two handles' `RefCell<OverlayBase>`
(the two handles reference the same overlay). The returned state is the
input state whenever an error is signalled, since the Rust code panics
before any mutation. -/
def attach_child (fuel : Nat) (ovl : OverlayBase) (self_index child_index : Nat)
    (same_overlay : Bool) : OverlayBase × Option OvlError :=
  if same_overlay = false then (ovl, some .diffOverlays)
  else if ((window ovl child_index).parent).isSome then (ovl, some .alreadyAttached)
  else if (child fuel ovl self_index ((window ovl child_index).name)).isSome then
    (ovl, some .nameCollision)
  else
    (attachSucc ovl self_index child_index, none)

/-- The mutation sequence of the success path of `Window::detach_child`:
retain every other child in the parent's children list, clear the child's
parent link, raise `should_reindex`. -/
def detachSucc (ovl : OverlayBase) (self_index child_index : Nat) : OverlayBase :=
  let s1 := set_window ovl self_index
    { window ovl self_index with
        children := (window ovl self_index).children.filter (fun i => i ≠ child_index) }
  let s2 := set_window s1 child_index
    { window s1 child_index with parent := none }
  { s2 with should_reindex := true }

/-- Mirrors `Window::detach_child` (same conventions as `attach_child`). -/
def detach_child (ovl : OverlayBase) (self_index child_index : Nat)
    (same_overlay : Bool) : OverlayBase × Option OvlError :=
  if same_overlay = false then (ovl, some .diffOverlays)
  else
    match (window ovl child_index).parent with
    | some parent =>
      if parent = self_index then (detachSucc ovl self_index child_index, none)
      else (ovl, some .detachMismatch)
    | none => (ovl, some .detachMismatch)

section BasicLemmas

theorem window_set_window_self {ovl : OverlayBase} {i : Nat} {w : WindowBase}
    (h : i < ovl.arena.length) : window (set_window ovl i w) i = w := by
  simp [window, set_window, List.getD_eq_getElem?_getD, List.getElem?_set_eq_of_lt, h]

theorem window_set_window_ne {ovl : OverlayBase} {i j : Nat} {w : WindowBase}
    (h : j ≠ i) : window (set_window ovl i w) j = window ovl j := by
  simp [window, set_window, List.getD_eq_getElem?_getD, List.getElem?_set_ne (Ne.symm h)]

theorem arena_length_set_window {ovl : OverlayBase} {i : Nat} {w : WindowBase} :
    (set_window ovl i w).arena.length = ovl.arena.length := by
  simp [set_window]

theorem applyWrites_length {ws : List (Nat × VertexData)} : ∀ {buf : List VertexData},
    (applyWrites buf ws).length = buf.length := by
  induction ws with
  | nil => intro buf; rfl
  | cons p rest ih =>
    intro buf
    simpa [applyWrites] using @ih (buf.set p.1 p.2)

theorem window_set_window (ovl : OverlayBase) (i : Nat) (w : WindowBase) (j : Nat) :
    window (set_window ovl i w) j =
      if i = j ∧ i < ovl.arena.length then w else window ovl j := by
  by_cases hij : i = j
  · subst hij
    by_cases hlen : i < ovl.arena.length
    · simp [window_set_window_self hlen, hlen]
    · have : ovl.arena.set i w = ovl.arena := List.set_eq_of_length_le (by omega)
      simp [window, set_window, this, hlen]
  · simp [window_set_window_ne (Ne.symm hij), hij]

theorem splitAtSep_eq_none {sep : Char} : ∀ {l : List Char}, sep ∉ l →
    splitAtSep sep l = none := by
  intro l
  induction l with
  | nil => intro; rfl
  | cons c rest ih =>
    intro h
    have hc : ¬(c = sep) := fun hcs => h (hcs ▸ List.mem_cons_self c rest)
    have hr : sep ∉ rest := fun hm => h (List.mem_cons_of_mem c hm)
    simp [splitAtSep, hc, ih hr]

theorem findChild_isSome_iff (ovl : OverlayBase) (nm : List Char) : ∀ (cs : List Nat),
    (findChild ovl cs nm).isSome ↔ ∃ d ∈ cs, (window ovl d).name = nm := by
  intro cs
  induction cs with
  | nil => simp [findChild]
  | cons c rest ih =>
    by_cases hc : (window ovl c).name = nm
    · simp [findChild, hc]
    · simp [findChild, hc, ih]

theorem child_sepfree (fuel : Nat) (ovl : OverlayBase) (i : Nat) (nm : List Char)
    (h : '.' ∉ nm) :
    child (fuel + 1) ovl i nm = findChild ovl ((window ovl i).children) nm := by
  unfold child
  rw [splitAtSep_eq_none h]

end BasicLemmas

section ClaimC5

theorem attachSucc_children (ovl : OverlayBase) (s c : Nat)
    (hs : s < ovl.arena.length) (hc : c < ovl.arena.length) :
    (window (attachSucc ovl s c) s).children = (window ovl s).children ++ [c] := by
  show (window (set_window (set_window ovl s
      { window ovl s with children := (window ovl s).children ++ [c] }) c _) s).children = _
  rw [window_set_window]
  by_cases hcs : c = s
  · subst hcs
    simp only [arena_length_set_window, hc, and_true, if_pos rfl]
    rw [window_set_window_self hs]
    simp
  · rw [if_neg (by intro h; exact hcs h.1), window_set_window_self hs]

theorem attachSucc_parent (ovl : OverlayBase) (s c : Nat)
    (hc : c < ovl.arena.length) :
    (window (attachSucc ovl s c) c).parent = some s := by
  show (window (set_window _ c _) c).parent = some s
  rw [window_set_window_self (by rw [arena_length_set_window]; exact hc)]

theorem attachSucc_frame (ovl : OverlayBase) (s c j : Nat)
    (hjs : j ≠ s) (hjc : j ≠ c) :
    window (attachSucc ovl s c) j = window ovl j := by
  show window (set_window (set_window ovl s _) c _) j = _
  rw [window_set_window_ne hjc, window_set_window_ne hjs]

/-- C5: `Window::attach_child` signals an error exactly when the handles
belong to different overlays, or the child already has a parent, or the
parent already has an immediate child with the child's name (the window
name contains no separator, as the overlay docs require); an error leaves
the state untouched, and success appends the child to the parent's
children, sets its parent link, appends it to the dirty list and raises
`should_reindex`, leaving every other window untouched. -/
theorem attach_child_spec (fuel : Nat) (ovl : OverlayBase) (s c : Nat) (same : Bool)
    (hs : s < ovl.arena.length) (hc : c < ovl.arena.length)
    (hname : '.' ∉ (window ovl c).name) :
    ((attach_child (fuel + 1) ovl s c same).2.isSome ↔
      (same = false ∨ (window ovl c).parent ≠ none ∨
        ∃ d ∈ (window ovl s).children, (window ovl d).name = (window ovl c).name)) ∧
    ((attach_child (fuel + 1) ovl s c same).2.isSome →
       (attach_child (fuel + 1) ovl s c same).1 = ovl) ∧
    ((attach_child (fuel + 1) ovl s c same).2 = none →
      ((window (attach_child (fuel + 1) ovl s c same).1 s).children
          = (window ovl s).children ++ [c] ∧
       (window (attach_child (fuel + 1) ovl s c same).1 c).parent = some s ∧
       (attach_child (fuel + 1) ovl s c same).1.should_reindex = true ∧
       (attach_child (fuel + 1) ovl s c same).1.should_update
          = ovl.should_update ++ [c] ∧
       (attach_child (fuel + 1) ovl s c same).1.indices = ovl.indices ∧
       (attach_child (fuel + 1) ovl s c same).1.vbo = ovl.vbo ∧
       (∀ j, j ≠ s → j ≠ c → window (attach_child (fuel + 1) ovl s c same).1 j
          = window ovl j))) := by
  have hchild : (child (fuel + 1) ovl s ((window ovl c).name)).isSome ↔
      ∃ d ∈ (window ovl s).children, (window ovl d).name = (window ovl c).name := by
    rw [child_sepfree fuel ovl s _ hname]
    exact findChild_isSome_iff ovl _ _
  by_cases hsame : same = false
  · constructor
    · simp [attach_child, hsame]
    · constructor
      · intro _; simp [attach_child, hsame]
      · intro habs
        exfalso
        simp [attach_child, hsame] at habs
  · have hsame' : same = true := by
      cases same
      · exact absurd rfl hsame
      · rfl
    subst hsame'
    by_cases hpar : ((window ovl c).parent).isSome
    · have hpar' : (window ovl c).parent ≠ none := by
        intro hn; rw [hn] at hpar; exact absurd hpar (by simp)
      constructor
      · simp [attach_child, hpar, hpar']
      · constructor
        · intro _; simp [attach_child, hpar]
        · intro habs; exfalso; simp [attach_child, hpar] at habs
    · have hparn : (window ovl c).parent = none := by
        cases hp : (window ovl c).parent
        · rfl
        · rw [hp] at hpar; exact absurd (by simp) hpar
      by_cases hcoll : (child (fuel + 1) ovl s ((window ovl c).name)).isSome
      · have hex := hchild.mp hcoll
        constructor
        · simp [attach_child, hpar, hcoll, hex]
        · constructor
          · intro _; simp [attach_child, hpar, hcoll]
          · intro habs; exfalso; simp [attach_child, hpar, hcoll] at habs
      · have hnex : ¬ ∃ d ∈ (window ovl s).children,
            (window ovl d).name = (window ovl c).name := fun he => hcoll (hchild.mpr he)
        have hred : attach_child (fuel + 1) ovl s c true = (attachSucc ovl s c, none) := by
          simp [attach_child, hpar, hcoll]
        refine ⟨by simp [hred, hparn, hnex], by simp [hred], ?_⟩
        intro _
        rw [hred]
        exact ⟨attachSucc_children ovl s c hs hc, attachSucc_parent ovl s c hc,
          rfl, rfl, rfl, rfl, fun j hjs hjc => attachSucc_frame ovl s c j hjs hjc⟩

/-- Witness for C5: a successful attach on a two-window overlay. -/
theorem attach_child_spec_witness :
    let s : OverlayBase :=
      { arena := [{ (default : WindowBase) with children := [] },
                  { (default : WindowBase) with name := ['a'] }]
        indices := [], vbo := [], should_update := [], should_reindex := false }
    ((attach_child 4 s 0 1 true).2.isSome ↔
      (true = false ∨ (window s 1).parent ≠ none ∨
        ∃ d ∈ (window s 0).children, (window s d).name = (window s 1).name)) ∧
    ((attach_child 4 s 0 1 true).2 = none →
      ((window (attach_child 4 s 0 1 true).1 0).children = (window s 0).children ++ [1] ∧
       (window (attach_child 4 s 0 1 true).1 1).parent = some 0)) := by
  intro s
  have h := attach_child_spec 3 s 0 1 true (by decide) (by decide) (by decide)
  exact ⟨h.1, fun hn => ⟨(h.2.2 hn).1, (h.2.2 hn).2.1⟩⟩

end ClaimC5

section ClaimC6

theorem detachSucc_children (ovl : OverlayBase) (s c : Nat)
    (hs : s < ovl.arena.length) (hc : c < ovl.arena.length) :
    (window (detachSucc ovl s c) s).children
      = (window ovl s).children.filter (fun i => i ≠ c) := by
  show (window (set_window (set_window ovl s
      { window ovl s with
          children := (window ovl s).children.filter (fun i => i ≠ c) }) c _) s).children = _
  rw [window_set_window]
  by_cases hcs : c = s
  · subst hcs
    simp only [arena_length_set_window, hc, and_true, if_pos rfl]
    rw [window_set_window_self hs]
    simp
  · rw [if_neg (by intro h; exact hcs h.1), window_set_window_self hs]

theorem detachSucc_parent (ovl : OverlayBase) (s c : Nat)
    (hc : c < ovl.arena.length) :
    (window (detachSucc ovl s c) c).parent = none := by
  show (window (set_window _ c _) c).parent = none
  rw [window_set_window_self (by rw [arena_length_set_window]; exact hc)]

theorem detachSucc_frame (ovl : OverlayBase) (s c j : Nat)
    (hjs : j ≠ s) (hjc : j ≠ c) :
    window (detachSucc ovl s c) j = window ovl j := by
  show window (set_window (set_window ovl s _) c _) j = _
  rw [window_set_window_ne hjc, window_set_window_ne hjs]

/-- C6: for two handles of the same overlay, `Window::detach_child`
signals an error exactly when the designated child's current parent is
not the window it is being detached from (in particular when it has no
parent); an error leaves the state untouched, and success removes the
child from the parent's children list, clears its parent link, and raises
`should_reindex`, leaving every other window, the dirty list and the
buffers untouched. -/
theorem detach_child_spec (ovl : OverlayBase) (s c : Nat) (same : Bool)
    (hs : s < ovl.arena.length) (hc : c < ovl.arena.length)
    (hsame : same = true) :
    ((detach_child ovl s c same).2.isSome ↔ (window ovl c).parent ≠ some s) ∧
    ((detach_child ovl s c same).2.isSome → (detach_child ovl s c same).1 = ovl) ∧
    ((detach_child ovl s c same).2 = none →
      ((window (detach_child ovl s c same).1 s).children
          = (window ovl s).children.filter (fun i => i ≠ c) ∧
       (window (detach_child ovl s c same).1 c).parent = none ∧
       (detach_child ovl s c same).1.should_reindex = true ∧
       (detach_child ovl s c same).1.should_update = ovl.should_update ∧
       (detach_child ovl s c same).1.indices = ovl.indices ∧
       (detach_child ovl s c same).1.vbo = ovl.vbo ∧
       (∀ j, j ≠ s → j ≠ c → window (detach_child ovl s c same).1 j = window ovl j))) := by
  subst hsame
  cases hpar : (window ovl c).parent with
  | none =>
    refine ⟨by simp [detach_child, hpar], by simp [detach_child, hpar], ?_⟩
    intro habs
    exfalso
    simp [detach_child, hpar] at habs
  | some p =>
    by_cases hps : p = s
    · rw [hps] at hpar
      have hred : detach_child ovl s c true = (detachSucc ovl s c, none) := by
        simp [detach_child, hpar]
      refine ⟨by simp [hred, hpar, hps], by simp [hred], ?_⟩
      intro _
      rw [hred]
      exact ⟨detachSucc_children ovl s c hs hc, detachSucc_parent ovl s c hc,
        rfl, rfl, rfl, rfl, fun j hjs hjc => detachSucc_frame ovl s c j hjs hjc⟩
    · have hne : (window ovl c).parent ≠ some s := by
        rw [hpar]; intro h; exact hps (Option.some.inj h)
      refine ⟨by simp [detach_child, hpar, hps, hne], by simp [detach_child, hpar, hps], ?_⟩
      intro habs
      exfalso
      simp [detach_child, hpar, hps] at habs

/-- Witness for C6: a successful detach, on an overlay where window 1 is
attached to the root. -/
theorem detach_child_spec_witness :
    let s : OverlayBase :=
      { arena := [{ (default : WindowBase) with children := [1] },
                  { (default : WindowBase) with name := ['a'], parent := some 0 }]
        indices := [], vbo := [], should_update := [], should_reindex := false }
    ((detach_child s 0 1 true).2.isSome ↔ (window s 1).parent ≠ some 0) ∧
    ((detach_child s 0 1 true).2 = none →
      ((window (detach_child s 0 1 true).1 0).children
          = (window s 0).children.filter (fun i => i ≠ 1) ∧
       (window (detach_child s 0 1 true).1 1).parent = none ∧
       (detach_child s 0 1 true).1.should_reindex = true)) := by
  intro s
  have h := detach_child_spec s 0 1 true (by decide) (by decide) rfl
  exact ⟨h.1, fun hn => ⟨(h.2.2 hn).1, (h.2.2 hn).2.1, (h.2.2 hn).2.2.1⟩⟩

end ClaimC6

section UpdateWindowLemmas

/-- Equality of every `WindowBase` field except the mutable geometry
(`pos`/`size`): `update_window` only ever rewrites `pos` and `size`. -/
def staticEq (a b : WindowBase) : Prop :=
  a.name = b.name ∧ a.creation_data = b.creation_data ∧ a.shown = b.shown ∧
  a.children = b.children ∧ a.parent = b.parent ∧
  a.vbo_beg = b.vbo_beg ∧ a.vbo_end = b.vbo_end

theorem staticEq_refl (a : WindowBase) : staticEq a a :=
  ⟨rfl, rfl, rfl, rfl, rfl, rfl, rfl⟩

theorem staticEq_trans {a b c : WindowBase} (h1 : staticEq a b) (h2 : staticEq b c) :
    staticEq a c := by
  obtain ⟨u1, u2, u3, u4, u5, u6, u7⟩ := h1
  obtain ⟨v1, v2, v3, v4, v5, v6, v7⟩ := h2
  exact ⟨u1.trans v1, u2.trans v2, u3.trans v3, u4.trans v4, u5.trans v5,
    u6.trans v6, u7.trans v7⟩

theorem staticEq_coordStore (ovl : OverlayBase) (i : Nat) (np ns : Vec2) (b : Bool) (j : Nat) :
    staticEq
      (window (if b then
        set_window ovl i { window ovl i with pos := np, size := ns } else ovl) j)
      (window ovl j) := by
  split
  · rw [window_set_window]
    split
    · next hcond =>
      obtain ⟨rfl, -⟩ := hcond
      exact ⟨rfl, rfl, rfl, rfl, rfl, rfl, rfl⟩
    · exact staticEq_refl _
  · exact staticEq_refl _

/-- Unfolding equation for `update_window` at nonzero fuel. -/
theorem update_window_succ (fuel : Nat) (ovl : OverlayBase) (i : Nat) (full : Bool) :
    update_window (fuel + 1) ovl i full =
      (let w := window ovl i
       let cc : Bool := ¬(w.pos = newPos ovl w ∧ w.size = newSize ovl w)
       let ovl1 := if cc then
         set_window ovl i { w with pos := newPos ovl w, size := newSize ovl w } else ovl
       if full || cc then
         match updateChildren fuel ovl1 ((window ovl1 i).children) full with
         | none => none
         | some (ovl2, ws) => some (ovl2, quadWrites (window ovl1 i) ++ ws)
       else some (ovl1, quadWrites (window ovl1 i))) := rfl

theorem update_window_static : ∀ fuel,
    (∀ ovl i full ovl2 ws, update_window fuel ovl i full = some (ovl2, ws) →
       ∀ j, staticEq (window ovl2 j) (window ovl j)) ∧
    (∀ ovl cs full ovl2 ws, updateChildren fuel ovl cs full = some (ovl2, ws) →
       ∀ j, staticEq (window ovl2 j) (window ovl j)) := by
  intro fuel
  induction fuel with
  | zero =>
    constructor
    · intro ovl i full ovl2 ws h; exact absurd h (by simp [update_window])
    · intro ovl cs full ovl2 ws h; exact absurd h (by simp [updateChildren])
  | succ f ih =>
    constructor
    · intro ovl i full ovl2 ws h j
      rw [update_window_succ] at h
      dsimp only at h
      split at h
      · split at h
        · cases h
        · next o2 ws2 heq =>
          cases h
          exact staticEq_trans ((ih.2 _ _ _ _ _ heq) j) (staticEq_coordStore ovl i _ _ _ j)
      · cases h
        exact staticEq_coordStore ovl i _ _ _ j
    · intro ovl cs full ovl2 ws h j
      match cs with
      | [] =>
        simp only [updateChildren] at h
        cases h
        exact staticEq_refl _
      | c :: rest =>
        simp only [updateChildren] at h
        split at h
        · cases h
        · next o1 ws1 h1 =>
          split at h
          · cases h
          · next o2 ws2 h2 =>
            cases h
            exact staticEq_trans ((ih.2 _ _ _ _ _ h2) j) ((ih.1 _ _ _ _ _ h1) j)

theorem hidden_coordStore (ovl : OverlayBase) (i : Nat) (b : Bool) (j : Nat)
    (hsh : (window ovl j).shown = false) :
    ((window (if b then
        set_window ovl i { window ovl i with
          pos := newPos ovl (window ovl i), size := newSize ovl (window ovl i) }
      else ovl) j).pos = (window ovl j).pos ∧
     (window (if b then
        set_window ovl i { window ovl i with
          pos := newPos ovl (window ovl i), size := newSize ovl (window ovl i) }
      else ovl) j).size = (window ovl j).size) ∨
    ((window (if b then
        set_window ovl i { window ovl i with
          pos := newPos ovl (window ovl i), size := newSize ovl (window ovl i) }
      else ovl) j).pos = ⟨-1, -1⟩ ∧
     (window (if b then
        set_window ovl i { window ovl i with
          pos := newPos ovl (window ovl i), size := newSize ovl (window ovl i) }
      else ovl) j).size = ⟨0, 0⟩) := by
  split
  · rw [window_set_window]
    split
    · next hcond =>
      obtain ⟨rfl, -⟩ := hcond
      right
      constructor
      · show newPos ovl (window ovl i) = _
        simp [newPos, hsh]
      · show newSize ovl (window ovl i) = _
        simp [newSize, hsh]
    · left; exact ⟨rfl, rfl⟩
  · left; exact ⟨rfl, rfl⟩

theorem update_window_hidden : ∀ fuel,
    (∀ ovl i full ovl2 ws j, update_window fuel ovl i full = some (ovl2, ws) →
       (window ovl j).shown = false →
       ((window ovl2 j).pos = (window ovl j).pos ∧
        (window ovl2 j).size = (window ovl j).size) ∨
       ((window ovl2 j).pos = ⟨-1, -1⟩ ∧ (window ovl2 j).size = ⟨0, 0⟩)) ∧
    (∀ ovl cs full ovl2 ws j, updateChildren fuel ovl cs full = some (ovl2, ws) →
       (window ovl j).shown = false →
       ((window ovl2 j).pos = (window ovl j).pos ∧
        (window ovl2 j).size = (window ovl j).size) ∨
       ((window ovl2 j).pos = ⟨-1, -1⟩ ∧ (window ovl2 j).size = ⟨0, 0⟩)) := by
  intro fuel
  induction fuel with
  | zero =>
    constructor
    · intro ovl i full ovl2 ws j h; exact absurd h (by simp [update_window])
    · intro ovl cs full ovl2 ws j h; exact absurd h (by simp [updateChildren])
  | succ f ih =>
    have comp : ∀ (a b c : OverlayBase) (j : Nat),
        (((window b j).pos = (window a j).pos ∧ (window b j).size = (window a j).size) ∨
         ((window b j).pos = ⟨-1, -1⟩ ∧ (window b j).size = ⟨0, 0⟩)) →
        (((window c j).pos = (window b j).pos ∧ (window c j).size = (window b j).size) ∨
         ((window c j).pos = ⟨-1, -1⟩ ∧ (window c j).size = ⟨0, 0⟩)) →
        (((window c j).pos = (window a j).pos ∧ (window c j).size = (window a j).size) ∨
         ((window c j).pos = ⟨-1, -1⟩ ∧ (window c j).size = ⟨0, 0⟩)) := by
      intro a b c j h1 h2
      rcases h2 with ⟨h2p, h2s⟩ | h2
      · rcases h1 with ⟨h1p, h1s⟩ | h1
        · exact Or.inl ⟨h2p.trans h1p, h2s.trans h1s⟩
        · exact Or.inr ⟨h2p.trans h1.1, h2s.trans h1.2⟩
      · exact Or.inr h2
    constructor
    · intro ovl i full ovl2 ws j h hsh
      rw [update_window_succ] at h
      dsimp only at h
      have hstep := hidden_coordStore ovl i
        (¬((window ovl i).pos = newPos ovl (window ovl i) ∧
           (window ovl i).size = newSize ovl (window ovl i)) : Bool) j hsh
      have hsh1 : (window (if (¬((window ovl i).pos = newPos ovl (window ovl i) ∧
           (window ovl i).size = newSize ovl (window ovl i)) : Bool) then
            set_window ovl i { window ovl i with
              pos := newPos ovl (window ovl i), size := newSize ovl (window ovl i) }
          else ovl) j).shown = false := by
        have := (staticEq_coordStore ovl i (newPos ovl (window ovl i))
          (newSize ovl (window ovl i))
          (¬((window ovl i).pos = newPos ovl (window ovl i) ∧
             (window ovl i).size = newSize ovl (window ovl i)) : Bool) j).2.2.1
        rw [this, hsh]
      split at h
      · split at h
        · cases h
        · next o2 ws2 heq =>
          cases h
          exact comp _ _ _ j hstep (ih.2 _ _ _ _ _ j heq hsh1)
      · cases h
        exact hstep
    · intro ovl cs full ovl2 ws j h hsh
      match cs with
      | [] =>
        simp only [updateChildren] at h
        cases h
        exact Or.inl ⟨rfl, rfl⟩
      | c :: rest =>
        simp only [updateChildren] at h
        split at h
        · cases h
        · next o1 ws1 h1 =>
          split at h
          · cases h
          · next o2 ws2 h2 =>
            cases h
            have hsh1 : (window o1 j).shown = false := by
              rw [((update_window_static f).1 _ _ _ _ _ h1 j).2.2.1, hsh]
            exact comp _ _ _ j (ih.1 _ _ _ _ _ j h1 hsh) (ih.2 _ _ _ _ _ j h2 hsh1)

end UpdateWindowLemmas

section FrameLemmas

theorem preorder_congr : ∀ fuel (a b : OverlayBase),
    (∀ j, (window a j).children = (window b j).children) →
    (∀ w, preorder fuel a w = preorder fuel b w) ∧
    (∀ cs, preorderList fuel a cs = preorderList fuel b cs) := by
  intro fuel
  induction fuel with
  | zero =>
    intro a b hch
    exact ⟨fun w => rfl, fun cs => rfl⟩
  | succ f ih =>
    intro a b hch
    constructor
    · intro w
      show (match preorderList f a ((window a w).children) with
            | none => none | some l => some (w :: l)) =
           (match preorderList f b ((window b w).children) with
            | none => none | some l => some (w :: l))
      rw [hch w, (ih a b hch).2]
    · intro cs
      match cs with
      | [] => rfl
      | c :: rest =>
        show (match preorder f a c with
              | none => none
              | some l => match preorderList f a rest with
                | none => none | some ls => some (l ++ ls)) = _
        rw [(ih a b hch).1 c, (ih a b hch).2 rest]
        rfl

theorem coordStore_children (ovl : OverlayBase) (i : Nat) (np ns : Vec2) (b : Bool) (j : Nat) :
    (window (if b then
        set_window ovl i { window ovl i with pos := np, size := ns } else ovl) j).children
      = (window ovl j).children :=
  (staticEq_coordStore ovl i np ns b j).2.2.2.1

theorem quadWrites_slot {w : WindowBase} {p : Nat × VertexData} (hp : p ∈ quadWrites w) :
    ∃ k, k < 4 ∧ p.1 = 4 * w.vbo_beg + k := by
  simp only [quadWrites, List.mem_cons, List.not_mem_nil, or_false] at hp
  rcases hp with rfl | rfl | rfl | rfl
  · exact ⟨0, by omega, by simp⟩
  · exact ⟨1, by omega, rfl⟩
  · exact ⟨2, by omega, rfl⟩
  · exact ⟨3, by omega, rfl⟩

/-- Writes and state changes of `update_window` are confined to the
pre-order subtree of the visited node: nodes outside the traversal keep
their window record, and every emitted store targets one of the four
slots of some traversed node's quad. -/
theorem update_window_frame : ∀ fuel,
    (∀ ovl i full ovl2 ws l, update_window fuel ovl i full = some (ovl2, ws) →
       preorder fuel ovl i = some l →
       (∀ j, j ∉ l → window ovl2 j = window ovl j) ∧
       (∀ p ∈ ws, ∃ j ∈ l, ∃ k, k < 4 ∧ p.1 = 4 * (window ovl j).vbo_beg + k)) ∧
    (∀ ovl cs full ovl2 ws l, updateChildren fuel ovl cs full = some (ovl2, ws) →
       preorderList fuel ovl cs = some l →
       (∀ j, j ∉ l → window ovl2 j = window ovl j) ∧
       (∀ p ∈ ws, ∃ j ∈ l, ∃ k, k < 4 ∧ p.1 = 4 * (window ovl j).vbo_beg + k)) := by
  intro fuel
  induction fuel with
  | zero =>
    constructor
    · intro ovl i full ovl2 ws l h; exact absurd h (by simp [update_window])
    · intro ovl cs full ovl2 ws l h; exact absurd h (by simp [updateChildren])
  | succ f ih =>
    constructor
    · intro ovl i full ovl2 ws l h hpre
      rw [update_window_succ] at h
      dsimp only at h
      rw [show preorder (f + 1) ovl i =
          (match preorderList f ovl ((window ovl i).children) with
           | none => none | some l => some (i :: l)) from rfl] at hpre
      cases hld : preorderList f ovl ((window ovl i).children) with
      | none => rw [hld] at hpre; cases hpre
      | some ld =>
        rw [hld] at hpre
        cases hpre
        have hcongr := preorder_congr f
          (if (¬((window ovl i).pos = newPos ovl (window ovl i) ∧
               (window ovl i).size = newSize ovl (window ovl i)) : Bool) then
             set_window ovl i { window ovl i with
               pos := newPos ovl (window ovl i), size := newSize ovl (window ovl i) }
           else ovl) ovl
          (fun j => coordStore_children ovl i _ _ _ j)
        have hstep := fun j => staticEq_coordStore ovl i (newPos ovl (window ovl i))
          (newSize ovl (window ovl i))
          (¬((window ovl i).pos = newPos ovl (window ovl i) ∧
             (window ovl i).size = newSize ovl (window ovl i)) : Bool) j
        have hstepframe : ∀ j, j ≠ i →
            window (if (¬((window ovl i).pos = newPos ovl (window ovl i) ∧
               (window ovl i).size = newSize ovl (window ovl i)) : Bool) then
             set_window ovl i { window ovl i with
               pos := newPos ovl (window ovl i), size := newSize ovl (window ovl i) }
           else ovl) j = window ovl j := by
          intro j hji
          split
          · exact window_set_window_ne hji
          · rfl
        split at h
        · split at h
          · cases h
          · next o2 ws2 heq =>
            cases h
            have hld1 : preorderList f
                (if (¬((window ovl i).pos = newPos ovl (window ovl i) ∧
                   (window ovl i).size = newSize ovl (window ovl i)) : Bool) then
                 set_window ovl i { window ovl i with
                   pos := newPos ovl (window ovl i), size := newSize ovl (window ovl i) }
                 else ovl) ((window ovl i).children) = some ld := by
              rw [hcongr.2, hld]
            rw [show (window (if (¬((window ovl i).pos = newPos ovl (window ovl i) ∧
                   (window ovl i).size = newSize ovl (window ovl i)) : Bool) then
                 set_window ovl i { window ovl i with
                   pos := newPos ovl (window ovl i), size := newSize ovl (window ovl i) }
                 else ovl) i).children = (window ovl i).children from
              coordStore_children ovl i _ _ _ i] at heq
            obtain ⟨hframe, hwr⟩ := ih.2 _ _ _ _ _ _ heq hld1
            constructor
            · intro j hj
              have hji : j ≠ i := fun hcon => hj (hcon ▸ List.mem_cons_self i ld)
              have hjld : j ∉ ld := fun hcon => hj (List.mem_cons_of_mem i hcon)
              rw [hframe j hjld, hstepframe j hji]
            · intro p hp
              rcases List.mem_append.mp hp with hq | hq
              · obtain ⟨k, hk, hsl⟩ := quadWrites_slot hq
                exact ⟨i, List.mem_cons_self i ld, k, hk,
                  by rw [hsl, ((hstep i).2.2.2.2.2.1 : _)]⟩
              · obtain ⟨j, hjl, k, hk, hslot⟩ := hwr p hq
                refine ⟨j, List.mem_cons_of_mem i hjl, k, hk, ?_⟩
                rw [hslot, ((hstep j).2.2.2.2.2.1 : _)]
        · cases h
          constructor
          · intro j hj
            have hji : j ≠ i := fun hcon => hj (hcon ▸ List.mem_cons_self i ld)
            exact hstepframe j hji
          · intro p hp
            obtain ⟨k, hk, hsl⟩ := quadWrites_slot hp
            exact ⟨i, List.mem_cons_self i ld, k, hk,
              by rw [hsl, ((hstep i).2.2.2.2.2.1 : _)]⟩
    · intro ovl cs full ovl2 ws l h hpre
      match cs with
      | [] =>
        simp only [updateChildren] at h
        simp only [preorderList] at hpre
        cases h
        cases hpre
        exact ⟨fun j hj => rfl, fun p hp => absurd hp (List.not_mem_nil p)⟩
      | c :: rest =>
        simp only [updateChildren] at h
        simp only [preorderList] at hpre
        split at h
        · cases h
        · next o1 ws1 h1 =>
          split at h
          · cases h
          · next o2 ws2 h2 =>
            cases h
            cases hlc : preorder f ovl c with
            | none => rw [hlc] at hpre; cases hpre
            | some lc =>
              rw [hlc] at hpre
              cases hls : preorderList f ovl rest with
              | none => rw [hls] at hpre; cases hpre
              | some ls =>
                rw [hls] at hpre
                cases hpre
                obtain ⟨hframe1, hwr1⟩ := ih.1 _ _ _ _ _ _ h1 hlc
                have hch1 : ∀ j, (window o1 j).children = (window ovl j).children :=
                  fun j => ((update_window_static f).1 _ _ _ _ _ h1 j).2.2.2.1
                have hls1 : preorderList f o1 rest = some ls := by
                  rw [(preorder_congr f o1 ovl hch1).2, hls]
                obtain ⟨hframe2, hwr2⟩ := ih.2 _ _ _ _ _ _ h2 hls1
                constructor
                · intro j hj
                  have hjlc : j ∉ lc := fun hcon => hj (List.mem_append.mpr (Or.inl hcon))
                  have hjls : j ∉ ls := fun hcon => hj (List.mem_append.mpr (Or.inr hcon))
                  rw [hframe2 j hjls, hframe1 j hjlc]
                · intro p hp
                  rcases List.mem_append.mp hp with hq | hq
                  · obtain ⟨j, hjl, k, hk, hslot⟩ := hwr1 p hq
                    exact ⟨j, List.mem_append.mpr (Or.inl hjl), k, hk, hslot⟩
                  · obtain ⟨j, hjl, k, hk, hslot⟩ := hwr2 p hq
                    refine ⟨j, List.mem_append.mpr (Or.inr hjl), k, hk, ?_⟩
                    rw [hslot, (((update_window_static f).1 _ _ _ _ _ h1 j).2.2.2.2.2.1 : _)]

theorem set_window_env (ovl : OverlayBase) (i : Nat) (w : WindowBase) :
    (set_window ovl i w).indices = ovl.indices ∧
    (set_window ovl i w).vbo = ovl.vbo ∧
    (set_window ovl i w).should_update = ovl.should_update ∧
    (set_window ovl i w).should_reindex = ovl.should_reindex ∧
    (set_window ovl i w).arena.length = ovl.arena.length :=
  ⟨rfl, rfl, rfl, rfl, by simp [set_window]⟩

/-- `update_window` touches only the arena (and only `pos`/`size` in it):
the buffers, flags, and the arena length are all preserved. -/
theorem update_window_env : ∀ fuel,
    (∀ ovl i full ovl2 ws, update_window fuel ovl i full = some (ovl2, ws) →
       ovl2.indices = ovl.indices ∧ ovl2.vbo = ovl.vbo ∧
       ovl2.should_update = ovl.should_update ∧
       ovl2.should_reindex = ovl.should_reindex ∧
       ovl2.arena.length = ovl.arena.length) ∧
    (∀ ovl cs full ovl2 ws, updateChildren fuel ovl cs full = some (ovl2, ws) →
       ovl2.indices = ovl.indices ∧ ovl2.vbo = ovl.vbo ∧
       ovl2.should_update = ovl.should_update ∧
       ovl2.should_reindex = ovl.should_reindex ∧
       ovl2.arena.length = ovl.arena.length) := by
  intro fuel
  induction fuel with
  | zero =>
    constructor
    · intro ovl i full ovl2 ws h; exact absurd h (by simp [update_window])
    · intro ovl cs full ovl2 ws h; exact absurd h (by simp [updateChildren])
  | succ f ih =>
    have hstep : ∀ (ovl : OverlayBase) (i : Nat) (np ns : Vec2) (b : Bool),
        (if b then set_window ovl i { window ovl i with pos := np, size := ns }
         else ovl).indices = ovl.indices ∧
        (if b then set_window ovl i { window ovl i with pos := np, size := ns }
         else ovl).vbo = ovl.vbo ∧
        (if b then set_window ovl i { window ovl i with pos := np, size := ns }
         else ovl).should_update = ovl.should_update ∧
        (if b then set_window ovl i { window ovl i with pos := np, size := ns }
         else ovl).should_reindex = ovl.should_reindex ∧
        (if b then set_window ovl i { window ovl i with pos := np, size := ns }
         else ovl).arena.length = ovl.arena.length := by
      intro ovl i np ns b
      split
      · exact set_window_env ovl i _
      · exact ⟨rfl, rfl, rfl, rfl, rfl⟩
    constructor
    · intro ovl i full ovl2 ws h
      rw [update_window_succ] at h
      dsimp only at h
      split at h
      · split at h
        · cases h
        · next o2 ws2 heq =>
          cases h
          obtain ⟨e1, e2, e3, e4, e5⟩ := ih.2 _ _ _ _ _ heq
          obtain ⟨g1, g2, g3, g4, g5⟩ := hstep ovl i (newPos ovl (window ovl i))
            (newSize ovl (window ovl i))
            (¬((window ovl i).pos = newPos ovl (window ovl i) ∧
               (window ovl i).size = newSize ovl (window ovl i)) : Bool)
          exact ⟨e1.trans g1, e2.trans g2, e3.trans g3, e4.trans g4, e5.trans g5⟩
      · cases h
        exact hstep ovl i (newPos ovl (window ovl i)) (newSize ovl (window ovl i)) _
    · intro ovl cs full ovl2 ws h
      match cs with
      | [] =>
        simp only [updateChildren] at h
        cases h
        exact ⟨rfl, rfl, rfl, rfl, rfl⟩
      | c :: rest =>
        simp only [updateChildren] at h
        split at h
        · cases h
        · next o1 ws1 h1 =>
          split at h
          · cases h
          · next o2 ws2 h2 =>
            cases h
            obtain ⟨e1, e2, e3, e4, e5⟩ := ih.1 _ _ _ _ _ h1
            obtain ⟨g1, g2, g3, g4, g5⟩ := ih.2 _ _ _ _ _ h2
            exact ⟨g1.trans e1, g2.trans e2, g3.trans e3, g4.trans e4, g5.trans e5⟩

/-- `build_tree` touches only the arena's `vbo_beg`/`vbo_end` fields:
the buffers, flags, and the arena length are all preserved. -/
theorem build_tree_env : ∀ fuel,
    (∀ ovl w ovl1, build_tree fuel ovl w = some ovl1 →
       ovl1.indices = ovl.indices ∧ ovl1.vbo = ovl.vbo ∧
       ovl1.should_update = ovl.should_update ∧
       ovl1.should_reindex = ovl.should_reindex ∧
       ovl1.arena.length = ovl.arena.length) ∧
    (∀ ovl cs prev ovl1 pe, buildChildren fuel ovl cs prev = some (ovl1, pe) →
       ovl1.indices = ovl.indices ∧ ovl1.vbo = ovl.vbo ∧
       ovl1.should_update = ovl.should_update ∧
       ovl1.should_reindex = ovl.should_reindex ∧
       ovl1.arena.length = ovl.arena.length) := by
  intro fuel
  induction fuel with
  | zero =>
    constructor
    · intro ovl w ovl1 h; exact absurd h (by simp [build_tree])
    · intro ovl cs prev ovl1 pe h; exact absurd h (by simp [buildChildren])
  | succ f ih =>
    constructor
    · intro ovl w ovl1 h
      rw [show build_tree (f + 1) ovl w =
          (match buildChildren f ovl ((window ovl w).children) ((window ovl w).vbo_beg + 1) with
           | none => none
           | some (ovl1, prev_end) =>
             some (set_window ovl1 w { window ovl1 w with vbo_end := prev_end })) from rfl] at h
      split at h
      · cases h
      · next o1 pe hbc =>
        cases h
        obtain ⟨e1, e2, e3, e4, e5⟩ := ih.2 _ _ _ _ _ hbc
        obtain ⟨g1, g2, g3, g4, g5⟩ := set_window_env o1 w { window o1 w with vbo_end := pe }
        exact ⟨g1.trans e1, g2.trans e2, g3.trans e3, g4.trans e4, g5.trans e5⟩
    · intro ovl cs prev ovl1 pe h
      match cs with
      | [] =>
        simp only [buildChildren] at h
        cases h
        exact ⟨rfl, rfl, rfl, rfl, rfl⟩
      | c :: rest =>
        simp only [buildChildren] at h
        split at h
        · cases h
        · next o2 hbt =>
          obtain ⟨e1, e2, e3, e4, e5⟩ := ih.1 _ _ _ hbt
          obtain ⟨g1, g2, g3, g4, g5⟩ := ih.2 _ _ _ _ _ h
          obtain ⟨k1, k2, k3, k4, k5⟩ := set_window_env ovl c
            { window ovl c with vbo_beg := prev }
          exact ⟨g1.trans (e1.trans k1), g2.trans (e2.trans k2), g3.trans (e3.trans k3),
            g4.trans (e4.trans k4), g5.trans (e5.trans k5)⟩

end FrameLemmas

section ClaimC7

/-- C7: a hidden window (`shown = false`) is resolved by the geometry
update to the degenerate off-viewport geometry `pos = (-1,-1)`,
`size = (0,0)`, whatever its params, its parent's geometry, or the pass
mode; its vertex range `vbo_beg`/`vbo_end` is left unchanged. -/
theorem update_window_hidden_degenerate (fuel : Nat) (ovl : OverlayBase) (i : Nat)
    (full : Bool) (ovl2 : OverlayBase) (ws : List (Nat × VertexData))
    (h : update_window fuel ovl i full = some (ovl2, ws))
    (hsh : (window ovl i).shown = false) (hin : i < ovl.arena.length) :
    (window ovl2 i).pos = ⟨-1, -1⟩ ∧ (window ovl2 i).size = ⟨0, 0⟩ ∧
    (window ovl2 i).vbo_beg = (window ovl i).vbo_beg ∧
    (window ovl2 i).vbo_end = (window ovl i).vbo_end := by
  have hstat := (update_window_static fuel).1 _ _ _ _ _ h i
  match fuel with
  | 0 => exact absurd h (by simp [update_window])
  | f + 1 =>
    rw [update_window_succ] at h
    dsimp only at h
    have hdeg1 : (window (if (¬((window ovl i).pos = newPos ovl (window ovl i) ∧
           (window ovl i).size = newSize ovl (window ovl i)) : Bool) then
          set_window ovl i { window ovl i with
            pos := newPos ovl (window ovl i), size := newSize ovl (window ovl i) }
        else ovl) i).pos = ⟨-1, -1⟩ ∧
        (window (if (¬((window ovl i).pos = newPos ovl (window ovl i) ∧
           (window ovl i).size = newSize ovl (window ovl i)) : Bool) then
          set_window ovl i { window ovl i with
            pos := newPos ovl (window ovl i), size := newSize ovl (window ovl i) }
        else ovl) i).size = ⟨0, 0⟩ := by
      by_cases hP : ((window ovl i).pos = newPos ovl (window ovl i) ∧
          (window ovl i).size = newSize ovl (window ovl i))
      · rw [if_neg (by simp [hP])]
        refine ⟨hP.1.trans ?_, hP.2.trans ?_⟩
        · simp [newPos, hsh]
        · simp [newSize, hsh]
      · rw [if_pos (by simp [hP]), window_set_window, if_pos ⟨rfl, hin⟩]
        constructor
        · show newPos ovl (window ovl i) = _
          simp [newPos, hsh]
        · show newSize ovl (window ovl i) = _
          simp [newSize, hsh]
    have hsh1 : (window (if (¬((window ovl i).pos = newPos ovl (window ovl i) ∧
           (window ovl i).size = newSize ovl (window ovl i)) : Bool) then
          set_window ovl i { window ovl i with
            pos := newPos ovl (window ovl i), size := newSize ovl (window ovl i) }
        else ovl) i).shown = false := by
      rw [(staticEq_coordStore ovl i (newPos ovl (window ovl i)) (newSize ovl (window ovl i))
        _ i).2.2.1, hsh]
    split at h
    · split at h
      · cases h
      · next o2 ws2 heq =>
        cases h
        rcases (update_window_hidden f).2 _ _ _ _ _ i heq hsh1 with ⟨hp, hs⟩ | ⟨hp, hs⟩
        · exact ⟨hp.trans hdeg1.1, hs.trans hdeg1.2, hstat.2.2.2.2.2.1, hstat.2.2.2.2.2.2⟩
        · exact ⟨hp, hs, hstat.2.2.2.2.2.1, hstat.2.2.2.2.2.2⟩
    · cases h
      exact ⟨hdeg1.1, hdeg1.2, hstat.2.2.2.2.2.1, hstat.2.2.2.2.2.2⟩

/-- Witness for C7: a hidden child with nonzero params resolves to the
degenerate geometry and keeps its vertex range. -/
theorem update_window_hidden_degenerate_witness :
    let s : OverlayBase :=
      { arena := [{ (default : WindowBase) with
                      children := [1], size := ⟨100, 100⟩, vbo_end := 2 },
                  { (default : WindowBase) with
                      name := ['h'], parent := some 0, shown := false,
                      pos := ⟨7, 7⟩, size := ⟨9, 9⟩, vbo_beg := 1, vbo_end := 2,
                      creation_data := { (default : WindowBase).creation_data with
                        pos := ⟨⟨0, 0, 30⟩, ⟨0, 0, 40⟩⟩, size := ⟨⟨0, 0, 50⟩, ⟨0, 0, 60⟩⟩ } }]
        indices := [], vbo := [], should_update := [], should_reindex := false }
    ∃ ovl2 ws, update_window 5 s 1 false = some (ovl2, ws) ∧
      ((window ovl2 1).pos = ⟨-1, -1⟩ ∧ (window ovl2 1).size = ⟨0, 0⟩ ∧
       (window ovl2 1).vbo_beg = (window s 1).vbo_beg ∧
       (window ovl2 1).vbo_end = (window s 1).vbo_end) := by
  intro s
  refine ⟨_, _, rfl, update_window_hidden_degenerate 5 s 1 false _ _ rfl (by decide)
    (by decide)⟩

end ClaimC7

section ClaimC2

/-- C2: a shown node processed by `update_window` resolves its absolute
geometry from its parent's already-resolved geometry —
`pos = parent.pos + dot(params.pos axis, (parent.size.x, parent.size.y, 1))`
and `size = dot(params.size axis, …)` per axis — or, for a parentless
root, from the pixel-constant (third) components of `params.pos`/`params.size`;
and writes its four corner vertices at slots `4*vbo_beg .. 4*vbo_beg+3` in
the order upper-left `pos`, upper-right `pos+(w,0)`, bottom-right
`pos+size`, bottom-left `pos+(0,h)`, each paired with that corner's
texcoord/color from its params. (`ld` enumerates the node's proper
descendants; the node not being its own descendant keeps the recursion
from revisiting it.) -/
theorem update_window_resolves (fuel : Nat) (ovl : OverlayBase) (i : Nat) (full : Bool)
    (ovl2 : OverlayBase) (ws : List (Nat × VertexData)) (ld : List Nat)
    (h : update_window (fuel + 1) ovl i full = some (ovl2, ws))
    (hsh : (window ovl i).shown = true)
    (hin : i < ovl.arena.length)
    (hld : preorderList fuel ovl ((window ovl i).children) = some ld)
    (hni : i ∉ ld) :
    (∀ p, (window ovl i).parent = some p →
       (window ovl2 i).pos =
         ⟨(window ovl p).pos.x + dot (window ovl i).creation_data.pos.x
            ⟨(window ovl p).size.x, (window ovl p).size.y, 1⟩,
          (window ovl p).pos.y + dot (window ovl i).creation_data.pos.y
            ⟨(window ovl p).size.x, (window ovl p).size.y, 1⟩⟩ ∧
       (window ovl2 i).size =
         ⟨dot (window ovl i).creation_data.size.x
            ⟨(window ovl p).size.x, (window ovl p).size.y, 1⟩,
          dot (window ovl i).creation_data.size.y
            ⟨(window ovl p).size.x, (window ovl p).size.y, 1⟩⟩) ∧
    ((window ovl i).parent = none →
       (window ovl2 i).pos =
         ⟨(window ovl i).creation_data.pos.x.z, (window ovl i).creation_data.pos.y.z⟩ ∧
       (window ovl2 i).size =
         ⟨(window ovl i).creation_data.size.x.z, (window ovl i).creation_data.size.y.z⟩) ∧
    ws.take 4 =
      [(4 * (window ovl i).vbo_beg,
        { pos := (window ovl2 i).pos,
          uv := (window ovl i).creation_data.texcoord0,
          color := (window ovl i).creation_data.color0 }),
       (4 * (window ovl i).vbo_beg + 1,
        { pos := (window ovl2 i).pos + ⟨(window ovl2 i).size.x, 0⟩,
          uv := (window ovl i).creation_data.texcoord1,
          color := (window ovl i).creation_data.color1 }),
       (4 * (window ovl i).vbo_beg + 2,
        { pos := (window ovl2 i).pos + (window ovl2 i).size,
          uv := (window ovl i).creation_data.texcoord3,
          color := (window ovl i).creation_data.color3 }),
       (4 * (window ovl i).vbo_beg + 3,
        { pos := (window ovl2 i).pos + ⟨0, (window ovl2 i).size.y⟩,
          uv := (window ovl i).creation_data.texcoord2,
          color := (window ovl i).creation_data.color2 })] := by
  rw [update_window_succ] at h
  dsimp only at h
  have hres1 : (window (if (¬((window ovl i).pos = newPos ovl (window ovl i) ∧
         (window ovl i).size = newSize ovl (window ovl i)) : Bool) then
        set_window ovl i { window ovl i with
          pos := newPos ovl (window ovl i), size := newSize ovl (window ovl i) }
      else ovl) i).pos = newPos ovl (window ovl i) ∧
      (window (if (¬((window ovl i).pos = newPos ovl (window ovl i) ∧
         (window ovl i).size = newSize ovl (window ovl i)) : Bool) then
        set_window ovl i { window ovl i with
          pos := newPos ovl (window ovl i), size := newSize ovl (window ovl i) }
      else ovl) i).size = newSize ovl (window ovl i) := by
    by_cases hP : ((window ovl i).pos = newPos ovl (window ovl i) ∧
        (window ovl i).size = newSize ovl (window ovl i))
    · rw [if_neg (by simp [hP])]
      exact hP
    · rw [if_pos (by simp [hP]), window_set_window, if_pos ⟨rfl, hin⟩]
      exact ⟨rfl, rfl⟩
  have hstat1 := fun j => staticEq_coordStore ovl i (newPos ovl (window ovl i))
    (newSize ovl (window ovl i))
    (¬((window ovl i).pos = newPos ovl (window ovl i) ∧
       (window ovl i).size = newSize ovl (window ovl i)) : Bool) j
  have hkey : (window ovl2 i).pos = newPos ovl (window ovl i) ∧
      (window ovl2 i).size = newSize ovl (window ovl i) ∧
      ws.take 4 = quadWrites (window (if (¬((window ovl i).pos = newPos ovl (window ovl i) ∧
         (window ovl i).size = newSize ovl (window ovl i)) : Bool) then
        set_window ovl i { window ovl i with
          pos := newPos ovl (window ovl i), size := newSize ovl (window ovl i) }
      else ovl) i) := by
    split at h
    · split at h
      · cases h
      · next o2 ws2 heq =>
        cases h
        have hld1 : preorderList fuel
            (if (¬((window ovl i).pos = newPos ovl (window ovl i) ∧
               (window ovl i).size = newSize ovl (window ovl i)) : Bool) then
             set_window ovl i { window ovl i with
               pos := newPos ovl (window ovl i), size := newSize ovl (window ovl i) }
             else ovl) ((window ovl i).children) = some ld := by
          rw [(preorder_congr fuel _ ovl (fun j => coordStore_children ovl i _ _ _ j)).2, hld]
        rw [show (window (if (¬((window ovl i).pos = newPos ovl (window ovl i) ∧
               (window ovl i).size = newSize ovl (window ovl i)) : Bool) then
             set_window ovl i { window ovl i with
               pos := newPos ovl (window ovl i), size := newSize ovl (window ovl i) }
             else ovl) i).children = (window ovl i).children from
          coordStore_children ovl i _ _ _ i] at heq
        have hfr := ((update_window_frame fuel).2 _ _ _ _ _ _ heq hld1).1 i hni
        refine ⟨by rw [hfr, hres1.1], by rw [hfr, hres1.2], ?_⟩
        rw [show List.take 4 (quadWrites (window (if (¬((window ovl i).pos =
              newPos ovl (window ovl i) ∧
              (window ovl i).size = newSize ovl (window ovl i)) : Bool) then
            set_window ovl i { window ovl i with
              pos := newPos ovl (window ovl i), size := newSize ovl (window ovl i) }
            else ovl) i) ++ ws2) = _ from List.take_left' rfl]
    · cases h
      exact ⟨hres1.1, hres1.2, rfl⟩
  have hquad : ws.take 4 = quadWrites
      { window ovl i with
          pos := (window ovl2 i).pos, size := (window ovl2 i).size } := by
    rw [hkey.2.2]
    have h1 := hstat1 i
    unfold quadWrites
    rw [hres1.1, hres1.2, hkey.1, hkey.2.1, h1.2.1, h1.2.2.2.2.2.1]
  constructor
  · intro p hpar
    rw [hkey.1, hkey.2.1]
    unfold newPos newSize
    rw [if_neg (by rw [hsh]; simp), if_neg (by rw [hsh]; simp), hpar]
    exact ⟨rfl, rfl⟩
  constructor
  · intro hpar
    rw [hkey.1, hkey.2.1]
    unfold newPos newSize
    rw [if_neg (by rw [hsh]; simp), if_neg (by rw [hsh]; simp), hpar]
    exact ⟨rfl, rfl⟩
  · rw [hquad]
    rfl

/-- The overlay of the spec's parent-relative resolution example: a
parent resolved at `pos=(10,20)`, `size=(100,50)` with an attached child
whose params are `pos=((0.5,0,0),(0,0.5,0))`, `size=((0.2,0,0),(0,0.2,0))`. -/
def c2State : OverlayBase :=
  { arena := [{ (default : WindowBase) with
                  children := [1], pos := ⟨10, 20⟩, size := ⟨100, 50⟩, vbo_end := 2 },
              { (default : WindowBase) with
                  name := ['c'], parent := some 0, vbo_beg := 1, vbo_end := 2,
                  creation_data := { (default : WindowBase).creation_data with
                    pos := ⟨⟨1/2, 0, 0⟩, ⟨0, 1/2, 0⟩⟩,
                    size := ⟨⟨1/5, 0, 0⟩, ⟨0, 1/5, 0⟩⟩ } }]
    indices := [], vbo := [], should_update := [], should_reindex := false }

/-- Witness for C2, the spec's example: parent at `pos=(10,20)`,
`size=(100,50)`, child params `pos=((0.5,0,0),(0,0.5,0))`,
`size=((0.2,0,0),(0,0.2,0))` resolve to `pos=(60,45)`, `size=(20,10)`. -/
theorem update_window_resolves_witness :
    ∃ ovl2 ws, update_window 2 c2State 1 false = some (ovl2, ws) ∧
      (window ovl2 1).pos = ⟨60, 45⟩ ∧ (window ovl2 1).size = ⟨20, 10⟩ := by
  have hch : (window c2State 1).children = [] := rfl
  have hsome : ∃ r, update_window 2 c2State 1 false = some r := by
    rw [update_window_succ]
    dsimp only
    split
    · rw [coordStore_children, hch]
      exact ⟨_, rfl⟩
    · exact ⟨_, rfl⟩
  obtain ⟨⟨ovl2, ws⟩, hev⟩ := hsome
  have h := update_window_resolves 1 c2State 1 false ovl2 ws [] hev rfl
    (by decide) (by rw [hch]; rfl) (by decide)
  have hrp : (window c2State 0).pos = ⟨10, 20⟩ := rfl
  have hrs : (window c2State 0).size = ⟨100, 50⟩ := rfl
  have hcp : (window c2State 1).creation_data.pos = ⟨⟨1/2, 0, 0⟩, ⟨0, 1/2, 0⟩⟩ := rfl
  have hcs : (window c2State 1).creation_data.size = ⟨⟨1/5, 0, 0⟩, ⟨0, 1/5, 0⟩⟩ := rfl
  refine ⟨ovl2, ws, hev, ?_, ?_⟩
  · rw [(h.1 0 rfl).1, hrp, hrs, hcp]
    simp only [dot]
    norm_num
  · rw [(h.1 0 rfl).2, hrs, hcs]
    simp only [dot]
    norm_num

end ClaimC2

section ClaimC3

theorem quadWrites_mem_slot (w : WindowBase) (k : Nat) (hk : k < 4) :
    (4 * w.vbo_beg + k) ∈ (quadWrites w).map Prod.fst := by
  interval_cases k <;> simp [quadWrites]

theorem update_window_emits_quad (fuel : Nat) (ovl : OverlayBase) (i : Nat) (full : Bool)
    (ovl2 : OverlayBase) (ws : List (Nat × VertexData))
    (h : update_window fuel ovl i full = some (ovl2, ws)) :
    ∀ k, k < 4 → (4 * (window ovl i).vbo_beg + k) ∈ ws.map Prod.fst := by
  intro k hk
  match fuel with
  | 0 => exact absurd h (by simp [update_window])
  | f + 1 =>
    rw [update_window_succ] at h
    dsimp only at h
    have hbeg : (window (if (¬((window ovl i).pos = newPos ovl (window ovl i) ∧
         (window ovl i).size = newSize ovl (window ovl i)) : Bool) then
        set_window ovl i { window ovl i with
          pos := newPos ovl (window ovl i), size := newSize ovl (window ovl i) }
      else ovl) i).vbo_beg = (window ovl i).vbo_beg :=
      (staticEq_coordStore ovl i _ _ _ i).2.2.2.2.2.1
    have hmem : (4 * (window ovl i).vbo_beg + k) ∈
        (quadWrites (window (if (¬((window ovl i).pos = newPos ovl (window ovl i) ∧
           (window ovl i).size = newSize ovl (window ovl i)) : Bool) then
          set_window ovl i { window ovl i with
            pos := newPos ovl (window ovl i), size := newSize ovl (window ovl i) }
        else ovl) i)).map Prod.fst := by
      rw [← hbeg]
      exact quadWrites_mem_slot _ k hk
    split at h
    · split at h
      · cases h
      · cases h
        rw [List.map_append]
        exact List.mem_append.mpr (Or.inl hmem)
    · cases h
      exact hmem

theorem updateDirtyList_spec (fuel : Nat) : ∀ (ds : List Nat) (ovl ovl2 : OverlayBase)
    (ws : List (Nat × VertexData)),
    updateDirtyList fuel ovl ds = some (ovl2, ws) →
    (∀ w ∈ ds, ∃ lw, preorder fuel ovl w = some lw) →
    (∀ w ∈ ds, ∀ k, k < 4 → (4 * (window ovl w).vbo_beg + k) ∈ ws.map Prod.fst) ∧
    (∀ p ∈ ws, ∃ w ∈ ds, ∃ lw, preorder fuel ovl w = some lw ∧
       ∃ j ∈ lw, ∃ k, k < 4 ∧ p.1 = 4 * (window ovl j).vbo_beg + k) := by
  intro ds
  induction ds with
  | nil =>
    intro ovl ovl2 ws h hpre
    cases h
    exact ⟨fun w hw => absurd hw (List.not_mem_nil w),
           fun p hp => absurd hp (List.not_mem_nil p)⟩
  | cons w rest ih =>
    intro ovl ovl2 ws h hpre
    rw [show updateDirtyList fuel ovl (w :: rest) =
        (match update_window fuel ovl w false with
         | none => none
         | some (ovl1, ws1) =>
           match updateDirtyList fuel ovl1 rest with
           | none => none
           | some (ovl2, ws2) => some (ovl2, ws1 ++ ws2)) from rfl] at h
    split at h
    · cases h
    · next o1 ws1 h1 =>
      split at h
      · cases h
      · next o2 ws2 h2 =>
        cases h
        have hstat := fun j => (update_window_static fuel).1 _ _ _ _ _ h1 j
        have hcongr := preorder_congr fuel o1 ovl (fun j => (hstat j).2.2.2.1)
        have hpre1 : ∀ v ∈ rest, ∃ lv, preorder fuel o1 v = some lv := by
          intro v hv
          obtain ⟨lv, hlv⟩ := hpre v (List.mem_cons_of_mem w hv)
          exact ⟨lv, by rw [hcongr.1 v, hlv]⟩
        obtain ⟨hpos2, hconf2⟩ := ih o1 _ _ h2 hpre1
        constructor
        · intro v hv k hk
          rw [List.map_append]
          rcases List.mem_cons.mp hv with rfl | hv
          · exact List.mem_append.mpr (Or.inl
              (update_window_emits_quad fuel ovl v false o1 ws1 h1 k hk))
          · have := hpos2 v hv k hk
            rw [(hstat v).2.2.2.2.2.1] at this
            exact List.mem_append.mpr (Or.inr this)
        · intro p hp
          rcases List.mem_append.mp hp with hq | hq
          · obtain ⟨lw, hlw⟩ := hpre w (List.mem_cons_self w rest)
            obtain ⟨hframe, hwr⟩ := (update_window_frame fuel).1 _ _ _ _ _ _ h1 hlw
            obtain ⟨j, hjl, k, hk, hslot⟩ := hwr p hq
            exact ⟨w, List.mem_cons_self w rest, lw, hlw, j, hjl, k, hk, hslot⟩
          · obtain ⟨v, hv, lv, hlv, j, hjl, k, hk, hslot⟩ := hconf2 p hq
            refine ⟨v, List.mem_cons_of_mem w hv, lv, by rw [← hcongr.1 v, hlv], j, hjl,
              k, hk, ?_⟩
            rw [hslot, (hstat j).2.2.2.2.2.1]

/-- C3 (amended): in a partial pass (`should_reindex = false`, non-empty
dirty list, no reindex) `update` rewrites the four vertex-buffer slots of
every dirty node, and every slot it writes belongs to a node *inside some
dirty node's pre-order subtree* — the pass recurses into the children of
a recomputed node whenever that node's resolved geometry changed, so
non-dirty descendants of a moved dirty node are also rewritten, but
nodes outside every dirty subtree are never written. -/
theorem update_partial_confined (fuel : Nat) (ovl ovl2 : OverlayBase) (eff : UpdateEffect)
    (hri : ovl.should_reindex = false)
    (hne : ovl.should_update ≠ [])
    (h : update fuel ovl = some (ovl2, eff))
    (hpre : ∀ w ∈ ovl.should_update, ∃ lw, preorder fuel ovl w = some lw) :
    eff.uploaded = none ∧
    (∀ w ∈ ovl.should_update, ∀ k, k < 4 →
       (4 * (window ovl w).vbo_beg + k) ∈ eff.partialWrites.map Prod.fst) ∧
    (∀ p ∈ eff.partialWrites, ∃ w ∈ ovl.should_update, ∃ lw,
       preorder fuel ovl w = some lw ∧
       ∃ j ∈ lw, ∃ k, k < 4 ∧ p.1 = 4 * (window ovl j).vbo_beg + k) := by
  unfold update at h
  rw [if_neg (by intro hcon; exact hne hcon.2), if_neg (by rw [hri]; simp)] at h
  cases hul : updateDirtyList fuel ovl ovl.should_update with
  | none => rw [hul] at h; cases h
  | some r =>
    obtain ⟨o2, ws⟩ := r
    rw [hul] at h
    cases h
    obtain ⟨hpos, hconf⟩ := updateDirtyList_spec fuel ovl.should_update ovl o2 ws hul hpre
    exact ⟨rfl, hpos, hconf⟩

/-- The counterexample overlay for C3 as stated: the dirty list holds
only window 1, whose resolved geometry changes during the pass (it is
hidden but its stored geometry `(0,0)` is stale), while its child,
window 2, is not dirty. -/
def c3State : OverlayBase :=
  { arena := [{ (default : WindowBase) with
                  children := [1], size := ⟨100, 100⟩, vbo_end := 3,
                  creation_data := { (default : WindowBase).creation_data with
                    size := ⟨⟨0, 0, 100⟩, ⟨0, 0, 100⟩⟩ } },
              { (default : WindowBase) with
                  name := ['a'], parent := some 0, children := [2],
                  shown := false, size := ⟨10, 10⟩, vbo_beg := 1, vbo_end := 3 },
              { (default : WindowBase) with
                  name := ['b'], parent := some 1, shown := false,
                  pos := ⟨-1, -1⟩, vbo_beg := 2, vbo_end := 3 }]
    indices := []
    vbo := List.replicate 12 default
    should_update := [1]
    should_reindex := false }

/-- The slots written by the partial branch of `update`. -/
def slotsWritten (fuel : Nat) (s : OverlayBase) : List Nat :=
  match update fuel s with
  | some (_, eff) => eff.partialWrites.map Prod.fst
  | none => []

/-- Counterexample to C3 as stated: during a partial (no-reindex) update
of `c3State`, window 2 is not in the dirty list, yet its vertex-buffer
slot `4*vbo_beg(2) = 8` is written, because the pass propagates into the
children of dirty window 1 once window 1's resolved geometry changed. -/
theorem update_partial_writes_nondirty :
    c3State.should_reindex = false ∧ c3State.should_update = [1] ∧
    2 ∉ c3State.should_update ∧
    4 * (window c3State 2).vbo_beg ∈ slotsWritten 5 c3State := by
  decide

/-- Witness for the amended C3, instantiated on the same overlay. -/
theorem update_partial_confined_witness :
    ∃ ovl2 eff, update 5 c3State = some (ovl2, eff) ∧ eff.uploaded = none ∧
      (∀ p ∈ eff.partialWrites, ∃ w ∈ c3State.should_update, ∃ lw,
        preorder 5 c3State w = some lw ∧
        ∃ j ∈ lw, ∃ k, k < 4 ∧ p.1 = 4 * (window c3State j).vbo_beg + k) := by
  cases hev : update 5 c3State with
  | none => exact absurd hev (by decide)
  | some r =>
    obtain ⟨ovl2, eff⟩ := r
    have h := update_partial_confined 5 c3State ovl2 eff (by decide) (by decide) hev
      (by
        intro w hw
        have hw1 : w = 1 := by
          have : c3State.should_update = [1] := rfl
          rw [this] at hw
          simpa using hw
        subst hw1
        exact ⟨[1, 2], by decide⟩)
    exact ⟨ovl2, eff, rfl, h.1, h.2.2⟩

end ClaimC3


section ClaimC1

/-- Equality of every `WindowBase` field except `vbo_beg`/`vbo_end`:
`build_tree` only ever rewrites the vertex-range fields. -/
def vboStaticEq (a b : WindowBase) : Prop :=
  a.name = b.name ∧ a.creation_data = b.creation_data ∧ a.shown = b.shown ∧
  a.children = b.children ∧ a.parent = b.parent ∧ a.pos = b.pos ∧ a.size = b.size

theorem vboStaticEq_refl (a : WindowBase) : vboStaticEq a a :=
  ⟨rfl, rfl, rfl, rfl, rfl, rfl, rfl⟩

theorem vboStaticEq_trans {a b c : WindowBase} (h1 : vboStaticEq a b) (h2 : vboStaticEq b c) :
    vboStaticEq a c := by
  obtain ⟨u1, u2, u3, u4, u5, u6, u7⟩ := h1
  obtain ⟨v1, v2, v3, v4, v5, v6, v7⟩ := h2
  exact ⟨u1.trans v1, u2.trans v2, u3.trans v3, u4.trans v4, u5.trans v5,
    u6.trans v6, u7.trans v7⟩

theorem vboStaticEq_set_vbo (ovl : OverlayBase) (i : Nat) (w : WindowBase) (j : Nat)
    (hw : vboStaticEq w (window ovl i)) :
    vboStaticEq (window (set_window ovl i w) j) (window ovl j) := by
  rw [window_set_window]
  split
  · next hcond =>
    obtain ⟨rfl, -⟩ := hcond
    exact hw
  · exact vboStaticEq_refl _

/-- `build_tree` preserves every field other than `vbo_beg`/`vbo_end`,
for every window of the arena. -/
theorem build_tree_static : ∀ fuel,
    (∀ ovl w ovl1, build_tree fuel ovl w = some ovl1 →
       ∀ j, vboStaticEq (window ovl1 j) (window ovl j)) ∧
    (∀ ovl cs prev ovl1 pe, buildChildren fuel ovl cs prev = some (ovl1, pe) →
       ∀ j, vboStaticEq (window ovl1 j) (window ovl j)) := by
  intro fuel
  induction fuel with
  | zero =>
    constructor
    · intro ovl w ovl1 h; exact absurd h (by simp [build_tree])
    · intro ovl cs prev ovl1 pe h; exact absurd h (by simp [buildChildren])
  | succ f ih =>
    constructor
    · intro ovl w ovl1 h j
      rw [show build_tree (f + 1) ovl w =
          (match buildChildren f ovl ((window ovl w).children) ((window ovl w).vbo_beg + 1) with
           | none => none
           | some (ovl1, prev_end) =>
             some (set_window ovl1 w { window ovl1 w with vbo_end := prev_end })) from rfl] at h
      split at h
      · cases h
      · next o1 pe hbc =>
        cases h
        exact vboStaticEq_trans
          (vboStaticEq_set_vbo o1 w _ j (vboStaticEq_refl _))
          (ih.2 _ _ _ _ _ hbc j)
    · intro ovl cs prev ovl1 pe h j
      match cs with
      | [] =>
        simp only [buildChildren] at h
        cases h
        exact vboStaticEq_refl _
      | c :: rest =>
        simp only [buildChildren] at h
        split at h
        · cases h
        · next o2 hbt =>
          exact vboStaticEq_trans (ih.2 _ _ _ _ _ h j)
            (vboStaticEq_trans (ih.1 _ _ _ hbt j)
              (vboStaticEq_set_vbo ovl c _ j (vboStaticEq_refl _)))

theorem preorder_head (fuel : Nat) (ovl : OverlayBase) (w : Nat) (l : List Nat)
    (h : preorder fuel ovl w = some l) : ∃ ls, l = w :: ls := by
  match fuel with
  | 0 => exact absurd h (by simp [preorder])
  | f + 1 =>
    rw [show preorder (f + 1) ovl w =
        (match preorderList f ovl ((window ovl w).children) with
         | none => none
         | some l => some (w :: l)) from rfl] at h
    split at h
    · cases h
    · cases h
      exact ⟨_, rfl⟩

theorem preorder_self_mem (fuel : Nat) (ovl : OverlayBase) (w : Nat) (l : List Nat)
    (h : preorder fuel ovl w = some l) : w ∈ l := by
  obtain ⟨ls, rfl⟩ := preorder_head fuel ovl w l h
  exact List.mem_cons_self w ls

/-- Pre-order traversals are closed under taking children: the subtree
list of any traversed node is inside the traversal. -/
theorem preorder_closed : ∀ fuel,
    (∀ ovl w l, preorder fuel ovl w = some l →
       ∀ j ∈ l, ∀ c ∈ (window ovl j).children, c ∈ l) ∧
    (∀ ovl cs l, preorderList fuel ovl cs = some l →
       (∀ c ∈ cs, c ∈ l) ∧ (∀ j ∈ l, ∀ c ∈ (window ovl j).children, c ∈ l)) := by
  intro fuel
  induction fuel with
  | zero =>
    constructor
    · intro ovl w l h; exact absurd h (by simp [preorder])
    · intro ovl cs l h; exact absurd h (by simp [preorderList])
  | succ f ih =>
    constructor
    · intro ovl w l h j hj c hc
      rw [show preorder (f + 1) ovl w =
          (match preorderList f ovl ((window ovl w).children) with
           | none => none
           | some l => some (w :: l)) from rfl] at h
      split at h
      · cases h
      · next ls hls =>
        cases h
        rcases List.mem_cons.mp hj with rfl | hjls
        · exact List.mem_cons_of_mem j ((ih.2 _ _ _ hls).1 c hc)
        · exact List.mem_cons_of_mem w ((ih.2 _ _ _ hls).2 j hjls c hc)
    · intro ovl cs l h
      match cs with
      | [] =>
        simp only [preorderList] at h
        cases h
        exact ⟨fun c hc => absurd hc (List.not_mem_nil c),
               fun j hj => absurd hj (List.not_mem_nil j)⟩
      | c :: rest =>
        simp only [preorderList] at h
        split at h
        · cases h
        · next lc hlc =>
          split at h
          · cases h
          · next lrest hlrest =>
            cases h
            constructor
            · intro d hd
              rcases List.mem_cons.mp hd with rfl | hdr
              · exact List.mem_append.mpr (Or.inl (preorder_self_mem f ovl d lc hlc))
              · exact List.mem_append.mpr (Or.inr ((ih.2 _ _ _ hlrest).1 d hdr))
            · intro j hj d hd
              rcases List.mem_append.mp hj with hjl | hjr
              · exact List.mem_append.mpr (Or.inl (ih.1 _ _ _ hlc j hjl d hd))
              · exact List.mem_append.mpr (Or.inr ((ih.2 _ _ _ hlrest).2 j hjr d hd))

/-- The sibling chain of the contiguous pre-order layout: starting at
`s`, each listed child's range begins exactly where the previous one
ended, and the chain ends at `e`. -/
def chainProp (ovl : OverlayBase) : List Nat → Nat → Nat → Prop
  | [], s, e => e = s
  | c :: cs, s, e =>
    (window ovl c).vbo_beg = s ∧ chainProp ovl cs ((window ovl c).vbo_end) e

theorem chainProp_congr (a b : OverlayBase) : ∀ (cs : List Nat) (s e : Nat),
    (∀ c ∈ cs, window a c = window b c) →
    chainProp a cs s e → chainProp b cs s e := by
  intro cs
  induction cs with
  | nil => intro s e _ h; exact h
  | cons c rest ih =>
    intro s e hw h
    obtain ⟨h1, h2⟩ := h
    have hc := hw c (List.mem_cons_self c rest)
    refine ⟨by rw [← hc]; exact h1, ?_⟩
    rw [← hc]
    exact ih _ _ (fun d hd => hw d (List.mem_cons_of_mem c hd)) h2

/-- The per-node layout facts established by `build_tree`: the children
chain starts right after the node's own quad and ends at the node's
`vbo_end`, and the node's range is non-degenerate. -/
def goodNode (ovl : OverlayBase) (j : Nat) : Prop :=
  chainProp ovl ((window ovl j).children)
    ((window ovl j).vbo_beg + 1) ((window ovl j).vbo_end) ∧
  (window ovl j).vbo_beg ≤ (window ovl j).vbo_end

theorem goodNode_congr (a b : OverlayBase) (j : Nat)
    (hj : window a j = window b j)
    (hch : ∀ c ∈ (window b j).children, window a c = window b c)
    (h : goodNode a j) : goodNode b j := by
  obtain ⟨h1, h2⟩ := h
  rw [hj] at h1 h2
  exact ⟨chainProp_congr a b _ _ _ hch h1, h2⟩

theorem goodNode_intro (ovl1 : OverlayBase) (j : Nat) (ch : List Nat) (b e : Nat)
    (h1 : (window ovl1 j).children = ch) (h2 : (window ovl1 j).vbo_beg = b)
    (h3 : (window ovl1 j).vbo_end = e)
    (hc : chainProp ovl1 ch (b + 1) e) (hbe : b ≤ e) : goodNode ovl1 j := by
  constructor
  · rw [h1, h2, h3]; exact hc
  · rw [h2, h3]; exact hbe

/-- The main reindex invariant, proved by induction following the shape
of `build_tree`: a successful reindex of a duplicate-free subtree fixes
the node's own `vbo_beg`, sets `vbo_end` to `vbo_beg` plus the subtree's
node count, leaves every window outside the subtree untouched, and
establishes the contiguous sibling chain at every traversed node. -/
theorem build_tree_spec : ∀ fuel,
    (∀ ovl w ovl1 l, build_tree fuel ovl w = some ovl1 →
       preorder fuel ovl w = some l → l.Nodup →
       (∀ j ∈ l, j < ovl.arena.length) →
       (window ovl1 w).vbo_beg = (window ovl w).vbo_beg ∧
       (window ovl1 w).vbo_end = (window ovl w).vbo_beg + l.length ∧
       (∀ j, j ∉ l → window ovl1 j = window ovl j) ∧
       (∀ j ∈ l, goodNode ovl1 j)) ∧
    (∀ ovl cs prev ovl1 pe l, buildChildren fuel ovl cs prev = some (ovl1, pe) →
       preorderList fuel ovl cs = some l → l.Nodup →
       (∀ j ∈ l, j < ovl.arena.length) →
       chainProp ovl1 cs prev pe ∧
       pe = prev + l.length ∧
       (∀ j, j ∉ l → window ovl1 j = window ovl j) ∧
       (∀ j ∈ l, goodNode ovl1 j) ∧
       (∀ c ∈ cs, c ∈ l)) := by
  intro fuel
  induction fuel with
  | zero =>
    constructor
    · intro ovl w ovl1 l h; exact absurd h (by simp [build_tree])
    · intro ovl cs prev ovl1 pe l h; exact absurd h (by simp [buildChildren])
  | succ f ih =>
    constructor
    · intro ovl w ovl1 l h hpre hnd hbd
      rw [show build_tree (f + 1) ovl w =
          (match buildChildren f ovl ((window ovl w).children) ((window ovl w).vbo_beg + 1) with
           | none => none
           | some (ovl1, prev_end) =>
             some (set_window ovl1 w { window ovl1 w with vbo_end := prev_end })) from rfl] at h
      rw [show preorder (f + 1) ovl w =
          (match preorderList f ovl ((window ovl w).children) with
           | none => none
           | some l => some (w :: l)) from rfl] at hpre
      split at h
      · cases h
      · next o1 pe hbc =>
        cases h
        split at hpre
        · cases hpre
        · next ls hls =>
          cases hpre
          have hwni : w ∉ ls := (List.nodup_cons.mp hnd).1
          have hndls : ls.Nodup := (List.nodup_cons.mp hnd).2
          have hbdw : w < ovl.arena.length := hbd w (List.mem_cons_self w ls)
          have hbdls : ∀ j ∈ ls, j < ovl.arena.length :=
            fun j hj => hbd j (List.mem_cons_of_mem w hj)
          obtain ⟨hchain, hpe, hframe, hgood, hsub⟩ :=
            ih.2 ovl _ _ o1 pe ls hbc hls hndls hbdls
          have hww : window o1 w = window ovl w := hframe w hwni
          have hwlen : w < o1.arena.length := by
            rw [((build_tree_env f).2 _ _ _ _ _ hbc).2.2.2.2]
            exact hbdw
          have hsetself :
              window (set_window o1 w { window o1 w with vbo_end := pe }) w =
              { window o1 w with vbo_end := pe } := window_set_window_self hwlen
          have hsetne : ∀ j, j ≠ w →
              window (set_window o1 w { window o1 w with vbo_end := pe }) j =
              window o1 j := fun j hj => window_set_window_ne hj
          refine ⟨?_, ?_, ?_, ?_⟩
          · rw [hsetself]
            show (window o1 w).vbo_beg = (window ovl w).vbo_beg
            rw [hww]
          · rw [hsetself]
            show pe = (window ovl w).vbo_beg + (w :: ls).length
            rw [hpe, List.length_cons]
            omega
          · intro j hj
            have hjw : j ≠ w := fun hcon => hj (hcon ▸ List.mem_cons_self w ls)
            have hjls : j ∉ ls := fun hcon => hj (List.mem_cons_of_mem w hcon)
            rw [hsetne j hjw, hframe j hjls]
          · intro j hj
            rcases List.mem_cons.mp hj with hjw | hjls
            · subst hjw
              refine goodNode_intro _ j ((window ovl j).children) ((window ovl j).vbo_beg)
                pe ?_ ?_ ?_ ?_ ?_
              · rw [hsetself]
                show (window o1 j).children = _
                rw [hww]
              · rw [hsetself]
                show (window o1 j).vbo_beg = _
                rw [hww]
              · rw [hsetself]
              · refine chainProp_congr o1 _ _ _ _ ?_ hchain
                intro c hc
                have hcls : c ∈ ls := hsub c hc
                exact (hsetne c (fun hcon => hwni (hcon ▸ hcls))).symm
              · rw [hpe]; omega
            · refine goodNode_congr o1 _ j (hsetne j (fun hcon => hwni (hcon ▸ hjls))).symm
                ?_ (hgood j hjls)
              intro c hc
              have hchj : (window (set_window o1 w { window o1 w with vbo_end := pe }) j).children
                  = (window ovl j).children := by
                rw [hsetne j (fun hcon => hwni (hcon ▸ hjls))]
                exact ((build_tree_static f).2 _ _ _ _ _ hbc j).2.2.2.1
              rw [hchj] at hc
              have hcls : c ∈ ls := (preorder_closed f).2 _ _ _ hls |>.2 j hjls c hc
              exact (hsetne c (fun hcon => hwni (hcon ▸ hcls))).symm
    · intro ovl cs prev ovl1 pe l h hpre hnd hbd
      match cs with
      | [] =>
        simp only [buildChildren] at h
        simp only [preorderList] at hpre
        cases h
        cases hpre
        exact ⟨rfl, by simp, fun j hj => rfl,
          fun j hj => absurd hj (List.not_mem_nil j),
          fun c hc => absurd hc (List.not_mem_nil c)⟩
      | c :: rest =>
        simp only [buildChildren] at h
        simp only [preorderList] at hpre
        split at h
        · cases h
        · next o2 hbt =>
          split at hpre
          · cases hpre
          · next lc hlc =>
            split at hpre
            · cases hpre
            · next lrest hlrest =>
              cases hpre
              obtain ⟨hndlc, hndrest, hdisj⟩ := List.nodup_append.mp hnd
              have hclc : c ∈ lc := preorder_self_mem f ovl c lc hlc
              have hbdc : c < ovl.arena.length :=
                hbd c (List.mem_append.mpr (Or.inl hclc))
              have hbdlc : ∀ j ∈ lc, j < ovl.arena.length :=
                fun j hj => hbd j (List.mem_append.mpr (Or.inl hj))
              have hbdlr : ∀ j ∈ lrest, j < ovl.arena.length :=
                fun j hj => hbd j (List.mem_append.mpr (Or.inr hj))
              have hch1 : ∀ j, (window (set_window ovl c
                  { window ovl c with vbo_beg := prev }) j).children
                    = (window ovl j).children :=
                fun j => (vboStaticEq_set_vbo ovl c
                  { window ovl c with vbo_beg := prev } j
                  ⟨rfl, rfl, rfl, rfl, rfl, rfl, rfl⟩).2.2.2.1
              have hlc1 : preorder f (set_window ovl c
                  { window ovl c with vbo_beg := prev }) c = some lc := by
                rw [(preorder_congr f _ ovl hch1).1 c]
                exact hlc
              have hbdlc1 : ∀ j ∈ lc, j < (set_window ovl c
                  { window ovl c with vbo_beg := prev }).arena.length := by
                intro j hj
                rw [arena_length_set_window]
                exact hbdlc j hj
              obtain ⟨hbeg2, hend2, hframe2, hgood2⟩ :=
                ih.1 _ c o2 lc hbt hlc1 hndlc hbdlc1
              have hbegc : (window o2 c).vbo_beg = prev := by
                rw [hbeg2, window_set_window_self hbdc]
              have hendc : (window o2 c).vbo_end = prev + lc.length := by
                rw [hend2, window_set_window_self hbdc]
              have hch2 : ∀ j, (window o2 j).children = (window ovl j).children :=
                fun j => (((build_tree_static f).1 _ _ _ hbt j).2.2.2.1).trans (hch1 j)
              have hlr2 : preorderList f o2 rest = some lrest := by
                rw [(preorder_congr f o2 ovl hch2).2 rest]
                exact hlrest
              have hbdlr2 : ∀ j ∈ lrest, j < o2.arena.length := by
                intro j hj
                rw [((build_tree_env f).1 _ _ _ hbt).2.2.2.2, arena_length_set_window]
                exact hbdlr j hj
              obtain ⟨hchainR, hpeR, hframeR, hgoodR, hsubR⟩ :=
                ih.2 o2 rest _ ovl1 pe lrest h hlr2 hndrest hbdlr2
              have hcnr : c ∉ lrest := hdisj hclc
              have hfr_c : window ovl1 c = window o2 c := hframeR c hcnr
              refine ⟨⟨by rw [hfr_c, hbegc], by rw [hfr_c]; exact hchainR⟩, ?_, ?_, ?_, ?_⟩
              · rw [hpeR, hendc, List.length_append]
                omega
              · intro j hj
                have hjlc : j ∉ lc := fun hcon => hj (List.mem_append.mpr (Or.inl hcon))
                have hjlr : j ∉ lrest := fun hcon => hj (List.mem_append.mpr (Or.inr hcon))
                have hjc : j ≠ c := fun hcon => hjlc (hcon ▸ hclc)
                rw [hframeR j hjlr, hframe2 j hjlc, window_set_window_ne hjc]
              · intro j hj
                rcases List.mem_append.mp hj with hjlc | hjlr
                · have hjnr : j ∉ lrest := hdisj hjlc
                  refine goodNode_congr o2 ovl1 j (hframeR j hjnr).symm ?_ (hgood2 j hjlc)
                  intro d hd
                  have hdch : d ∈ (window ovl j).children := by
                    rw [← hch2 j, ← hframeR j hjnr]
                    exact hd
                  have hdlc : d ∈ lc := (preorder_closed f).1 _ _ _ hlc j hjlc d hdch
                  exact (hframeR d (hdisj hdlc)).symm
                · exact hgoodR j hjlr
              · intro d hd
                rcases List.mem_cons.mp hd with rfl | hdr
                · exact List.mem_append.mpr (Or.inl hclc)
                · exact List.mem_append.mpr (Or.inr (hsubR d hdr))

theorem chainProp_le (ovl : OverlayBase) : ∀ (cs : List Nat) (s e : Nat),
    chainProp ovl cs s e →
    (∀ c ∈ cs, (window ovl c).vbo_beg ≤ (window ovl c).vbo_end) →
    s ≤ e ∧ ∀ b ∈ cs, s ≤ (window ovl b).vbo_beg := by
  intro cs
  induction cs with
  | nil =>
    intro s e h _
    exact ⟨le_of_eq h.symm, fun b hb => absurd hb (List.not_mem_nil b)⟩
  | cons c rest ih =>
    intro s e h hle
    obtain ⟨hbc, hrest⟩ := h
    have hce : (window ovl c).vbo_beg ≤ (window ovl c).vbo_end :=
      hle c (List.mem_cons_self c rest)
    obtain ⟨h1, h2⟩ := ih _ e hrest (fun d hd => hle d (List.mem_cons_of_mem c hd))
    constructor
    · omega
    · intro b hb
      rcases List.mem_cons.mp hb with rfl | hbr
      · omega
      · have := h2 b hbr
        omega

theorem chainProp_sum (ovl : OverlayBase) : ∀ (cs : List Nat) (s e : Nat),
    chainProp ovl cs s e →
    (∀ c ∈ cs, (window ovl c).vbo_beg ≤ (window ovl c).vbo_end) →
    e = s + (cs.map (fun c => (window ovl c).vbo_end - (window ovl c).vbo_beg)).sum := by
  intro cs
  induction cs with
  | nil => intro s e h _; simpa using h
  | cons c rest ih =>
    intro s e h hle
    obtain ⟨hbc, hrest⟩ := h
    have hce : (window ovl c).vbo_beg ≤ (window ovl c).vbo_end :=
      hle c (List.mem_cons_self c rest)
    have := ih _ e hrest (fun d hd => hle d (List.mem_cons_of_mem c hd))
    rw [List.map_cons, List.sum_cons]
    omega

theorem chainProp_pairwise (ovl : OverlayBase) : ∀ (cs : List Nat) (s e : Nat),
    chainProp ovl cs s e →
    (∀ c ∈ cs, (window ovl c).vbo_beg ≤ (window ovl c).vbo_end) →
    cs.Pairwise (fun a b => (window ovl a).vbo_end ≤ (window ovl b).vbo_beg) := by
  intro cs
  induction cs with
  | nil => intro s e _ _; exact List.Pairwise.nil
  | cons c rest ih =>
    intro s e h hle
    obtain ⟨hbc, hrest⟩ := h
    refine List.pairwise_cons.mpr ⟨?_, ih _ e hrest
      (fun d hd => hle d (List.mem_cons_of_mem c hd))⟩
    intro b hb
    exact (chainProp_le ovl rest _ e hrest
      (fun d hd => hle d (List.mem_cons_of_mem c hd))).2 b hb

/-- C1: after a reindex pass (`build_tree` from the root) over a
duplicate-free tree, every node reachable from the root satisfies the
contiguous pre-order layout: its quad-valued range covers its own quad
plus the ranges of all descendants
(`vbo_end = vbo_beg + 1 + sum of child range sizes`), the first child's
range starts right after the node's own quad, each subsequent sibling's
range starts exactly where the previous sibling's subtree range ended
(`chainProp`), sibling ranges are ordered and never overlap
(`Pairwise`), and every range is non-degenerate. -/
theorem build_tree_layout (fuel : Nat) (ovl ovl1 : OverlayBase) (l : List Nat)
    (hb : build_tree fuel ovl ROOT = some ovl1)
    (hp : preorder fuel ovl ROOT = some l)
    (hnd : l.Nodup)
    (hbd : ∀ j ∈ l, j < ovl.arena.length) :
    ∀ n ∈ l,
      (window ovl1 n).vbo_end = (window ovl1 n).vbo_beg + 1 +
        (((window ovl1 n).children).map
          (fun c => (window ovl1 c).vbo_end - (window ovl1 c).vbo_beg)).sum ∧
      chainProp ovl1 ((window ovl1 n).children)
        ((window ovl1 n).vbo_beg + 1) ((window ovl1 n).vbo_end) ∧
      ((window ovl1 n).children).Pairwise
        (fun a b => (window ovl1 a).vbo_end ≤ (window ovl1 b).vbo_beg) ∧
      (∀ c ∈ (window ovl1 n).children,
         (window ovl1 c).vbo_beg ≤ (window ovl1 c).vbo_end) := by
  obtain ⟨-, -, -, hgood⟩ := (build_tree_spec fuel).1 ovl ROOT ovl1 l hb hp hnd hbd
  intro n hn
  have hgn := hgood n hn
  have hchild_le : ∀ c ∈ (window ovl1 n).children,
      (window ovl1 c).vbo_beg ≤ (window ovl1 c).vbo_end := by
    intro c hc
    have hch : (window ovl1 n).children = (window ovl n).children :=
      ((build_tree_static fuel).1 _ _ _ hb n).2.2.2.1
    have hcl : c ∈ l := (preorder_closed fuel).1 _ _ _ hp n hn c (hch ▸ hc)
    exact (hgood c hcl).2
  refine ⟨?_, hgn.1, chainProp_pairwise ovl1 _ _ _ hgn.1 hchild_le, hchild_le⟩
  have := chainProp_sum ovl1 _ _ _ hgn.1 hchild_le
  omega

/-- A four-window tree (root with children 1 and 2; window 1 with
child 3) awaiting a reindex. -/
def c1State : OverlayBase :=
  { arena := [{ (default : WindowBase) with children := [1, 2] },
              { (default : WindowBase) with name := ['a'], children := [3], parent := some 0 },
              { (default : WindowBase) with name := ['c'], parent := some 0 },
              { (default : WindowBase) with name := ['b'], parent := some 1 }]
    indices := []
    vbo := []
    should_update := []
    should_reindex := true }

/-- Witness for C1 on the four-window tree. -/
theorem build_tree_layout_witness :
    ∃ ovl1, build_tree 10 c1State ROOT = some ovl1 ∧
      ((window ovl1 ROOT).vbo_end = (window ovl1 ROOT).vbo_beg + 1 +
        (((window ovl1 ROOT).children).map
          (fun c => (window ovl1 c).vbo_end - (window ovl1 c).vbo_beg)).sum ∧
       chainProp ovl1 ((window ovl1 ROOT).children)
         ((window ovl1 ROOT).vbo_beg + 1) ((window ovl1 ROOT).vbo_end) ∧
       ((window ovl1 ROOT).children).Pairwise
         (fun a b => (window ovl1 a).vbo_end ≤ (window ovl1 b).vbo_beg) ∧
       (∀ c ∈ (window ovl1 ROOT).children,
          (window ovl1 c).vbo_beg ≤ (window ovl1 c).vbo_end)) := by
  cases hev : build_tree 10 c1State ROOT with
  | none => exact absurd hev (by decide)
  | some ovl1 =>
    exact ⟨ovl1, rfl, build_tree_layout 10 c1State ovl1 [0, 1, 3, 2] hev (by decide)
      (by decide) (by decide) ROOT (by decide)⟩

end ClaimC1

section ClaimC8

theorem indicesPattern_length : ∀ n, (indicesPattern n).length = 6 * n := by
  intro n
  induction n with
  | zero => rfl
  | succ m ih => simp [indicesPattern, quadIndices, ih]; omega

theorem indicesPattern_take : ∀ m E, (indicesPattern m).take (6 * E) = indicesPattern (min m E) := by
  intro m
  induction m with
  | zero => intro E; simp [indicesPattern]
  | succ k ih =>
    intro E
    by_cases hE : k + 1 ≤ E
    · rw [List.take_of_length_le (by rw [indicesPattern_length]; omega),
        Nat.min_eq_left hE]
    · have hEk : E ≤ k := by omega
      rw [show indicesPattern (k + 1) = indicesPattern k ++ quadIndices k from rfl,
        List.take_append_of_le_length (by rw [indicesPattern_length]; omega), ih E,
        Nat.min_eq_right hEk, Nat.min_eq_right (show E ≤ k + 1 by omega)]

theorem extendIndices_pattern (E : Nat) : ∀ d k, E - k = d → k ≤ E →
    extendIndices (indicesPattern k) (6 * E) = indicesPattern E := by
  intro d
  induction d with
  | zero =>
    intro k hd hk
    have hkE : k = E := by omega
    subst hkE
    rw [extendIndices, dif_neg (by rw [indicesPattern_length]; omega)]
  | succ n ihn =>
    intro k hd hk
    have hkE : k < E := by omega
    rw [extendIndices, dif_pos (by rw [indicesPattern_length]; omega)]
    rw [show (indicesPattern k).length / 6 = k by rw [indicesPattern_length]; omega]
    rw [show indicesPattern k ++ quadIndices k = indicesPattern (k + 1) from rfl]
    exact ihn (k + 1) (by omega) (by omega)

theorem indicesPattern_quad : ∀ E i, i < E →
    ((indicesPattern E).drop (6 * i)).take 6 = quadIndices i := by
  intro E
  induction E with
  | zero => intro i hi; omega
  | succ m ih =>
    intro i hi
    rw [show indicesPattern (m + 1) = indicesPattern m ++ quadIndices m from rfl]
    by_cases him : i < m
    · rw [List.drop_append_of_le_length (by rw [indicesPattern_length]; omega),
        List.take_append_of_le_length]
      · exact ih i him
      · rw [List.length_drop, indicesPattern_length]
        omega
    · have hieq : i = m := by omega
      subst hieq
      rw [show 6 * i = (indicesPattern i).length by rw [indicesPattern_length],
        List.drop_left]
      rfl

/-- C8: an `update` that performs a reindex leaves the triangle index
buffer with exactly `6 * root.vbo_end` entries whose quad `i` slice
`[6i, 6i+6)` is `[4i, 4i+1, 4i+2, 4i, 4i+2, 4i+3]`, and re-uploads a
vertex buffer of exactly `4 * root.vbo_end` vertex records. (The
hypothesis that the prior index buffer is a whole-quad pattern is the
invariant every reachable overlay state satisfies — the buffer is only
ever written by this same loop, starting from the empty buffer.) -/
theorem update_reindex_buffers (fuel m : Nat) (ovl s1 : OverlayBase) (eff : UpdateEffect)
    (hri : ovl.should_reindex = true)
    (hm : ovl.indices = indicesPattern m)
    (h : update fuel ovl = some (s1, eff)) :
    s1.indices.length = 6 * (window s1 ROOT).vbo_end ∧
    (∀ i, i < (window s1 ROOT).vbo_end →
       ((s1.indices.drop (6 * i)).take 6) =
         [4 * i, 4 * i + 1, 4 * i + 2, 4 * i, 4 * i + 2, 4 * i + 3]) ∧
    s1.vbo.length = 4 * (window s1 ROOT).vbo_end ∧
    eff.uploaded = some s1.vbo := by
  unfold update at h
  rw [if_neg (by intro hcon; rw [hri] at hcon; cases hcon.1), if_pos hri] at h
  split at h
  · cases h
  · next ovl1 hbt =>
    split at h
    · cases h
    · next ovl2 ws huw =>
      cases h
      have hE : (window ovl2 ROOT).vbo_end = (window ovl1 ROOT).vbo_end :=
        ((update_window_static fuel).1 _ _ _ _ _ huw ROOT).2.2.2.2.2.2
      have hind : ovl2.indices = ovl.indices :=
        (((update_window_env fuel).1 _ _ _ _ _ huw).1).trans
          ((build_tree_env fuel).1 _ _ _ hbt).1
      have hpat : extendIndices (ovl2.indices.take (6 * (window ovl2 ROOT).vbo_end))
          (6 * (window ovl2 ROOT).vbo_end) = indicesPattern ((window ovl2 ROOT).vbo_end) := by
        rw [hind, hm, indicesPattern_take]
        exact extendIndices_pattern ((window ovl2 ROOT).vbo_end) _ _ rfl
          (Nat.min_le_right m _)
      refine ⟨?_, ?_, ?_, rfl⟩
      · show (extendIndices (ovl2.indices.take (6 * (window ovl2 ROOT).vbo_end))
            (6 * (window ovl2 ROOT).vbo_end)).length = 6 * (window ovl2 ROOT).vbo_end
        rw [hpat, indicesPattern_length]
      · intro i hi
        show ((extendIndices (ovl2.indices.take (6 * (window ovl2 ROOT).vbo_end))
            (6 * (window ovl2 ROOT).vbo_end)).drop (6 * i)).take 6 = _
        rw [hpat]
        exact indicesPattern_quad _ i hi
      · show (applyWrites (List.replicate (4 * (window ovl1 ROOT).vbo_end) default)
            ws).length = 4 * (window ovl2 ROOT).vbo_end
        rw [applyWrites_length, List.length_replicate, hE]

/-- Witness for C8 on a single-window overlay needing a reindex. -/
theorem update_reindex_buffers_witness :
    let s : OverlayBase :=
      { arena := [default]
        indices := []
        vbo := []
        should_update := [0]
        should_reindex := true }
    ∃ s1 eff, update 4 s = some (s1, eff) ∧
      (s1.indices.length = 6 * (window s1 ROOT).vbo_end ∧
       (∀ i, i < (window s1 ROOT).vbo_end →
          ((s1.indices.drop (6 * i)).take 6) =
            [4 * i, 4 * i + 1, 4 * i + 2, 4 * i, 4 * i + 2, 4 * i + 3]) ∧
       s1.vbo.length = 4 * (window s1 ROOT).vbo_end ∧
       eff.uploaded = some s1.vbo) := by
  intro s
  cases hev : update 4 s with
  | none => exact absurd hev (by decide)
  | some r =>
    obtain ⟨s1, eff⟩ := r
    exact ⟨s1, eff, rfl, update_reindex_buffers 4 0 s s1 eff rfl rfl hev⟩

end ClaimC8

section ClaimC9

/-- C9: `update` is idempotent with respect to GPU work: a successful
`update` always leaves `should_reindex = false` and `should_update = []`,
so an immediately following `update` (with any fuel) returns without
performing any vertex- or index-buffer writes and leaves the entire
overlay state unchanged. -/
theorem update_idempotent (fuel fuel2 : Nat) (ovl ovl1 : OverlayBase) (eff : UpdateEffect)
    (h : update fuel ovl = some (ovl1, eff)) :
    ovl1.should_reindex = false ∧ ovl1.should_update = [] ∧
      update fuel2 ovl1 = some (ovl1, ⟨none, []⟩) := by
  have hstate : ovl1.should_reindex = false ∧ ovl1.should_update = [] := by
    unfold update at h
    split at h
    · next hc => cases h; exact hc
    · split at h
      · split at h
        · cases h
        · split at h
          · cases h
          · cases h; exact ⟨rfl, rfl⟩
      · split at h
        · cases h
        · cases h; exact ⟨rfl, rfl⟩
  refine ⟨hstate.1, hstate.2, ?_⟩
  unfold update
  rw [if_pos ⟨hstate.1, hstate.2⟩]

/-- Witness for C9 at a concrete overlay state. -/
theorem update_idempotent_witness :
    let s : OverlayBase :=
      { arena := [default]
        indices := []
        vbo := []
        should_update := [0]
        should_reindex := true }
    ∃ s1 eff, update 4 s = some (s1, eff) ∧
      (s1.should_reindex = false ∧ s1.should_update = [] ∧
        update 4 s1 = some (s1, ⟨none, []⟩)) := by
  intro s
  refine ⟨_, _, rfl, update_idempotent 4 4 s _ _ rfl⟩

end ClaimC9

section ClaimC10

/-- C10: `Overlay::window` returns the root (arena index 0) for the paths
`""` and `"."`; any other path has at most one leading `.` stripped and is
resolved relative to the root, so `window(".p")` and `window("p")` agree
with `root().child(p)` whenever `p` does not itself begin with `.`. -/
theorem windowByPath_spec (fuel : Nat) (ovl : OverlayBase) (p : List Char) :
    windowByPath fuel ovl [] = some ROOT ∧
    windowByPath fuel ovl ['.'] = some ROOT ∧
    (p ≠ [] → windowByPath fuel ovl ('.' :: p) = child fuel ovl ROOT p) ∧
    (p ≠ [] → p.take 1 ≠ ['.'] → windowByPath fuel ovl p = child fuel ovl ROOT p) := by
  refine ⟨rfl, rfl, ?_, ?_⟩
  · intro hp
    have hne : ¬('.' :: p = [] ∨ '.' :: p = ['.']) := by
      rcases p with _ | ⟨c, rest⟩
      · exact absurd rfl hp
      · simp
    unfold windowByPath
    rw [if_neg hne, if_pos (by simp)]
    simp
  · intro hp hdot
    have hne : ¬(p = [] ∨ p = ['.']) := by
      rintro (rfl | rfl)
      · exact hp rfl
      · exact hdot rfl
    unfold windowByPath
    rw [if_neg hne, if_neg hdot]

/-- Witness for C10 on a concrete overlay and path. -/
theorem windowByPath_spec_witness :
    let s : OverlayBase :=
      { arena := [{ (default : WindowBase) with children := [1] },
                  { (default : WindowBase) with name := ['p'], parent := some 0 }]
        indices := [], vbo := [], should_update := [], should_reindex := false }
    windowByPath 4 s [] = some ROOT ∧
      windowByPath 4 s ['.'] = some ROOT ∧
      (windowByPath 4 s ['.', 'p'] = child 4 s ROOT ['p'] ∧
       windowByPath 4 s ['p'] = child 4 s ROOT ['p']) := by
  intro s
  have h := windowByPath_spec 4 s ['p']
  exact ⟨h.1, h.2.1, h.2.2.1 (by decide), h.2.2.2 (by decide) (by decide)⟩

end ClaimC10

section ClaimC4

/-- The overlay used to exhibit the path-resolution defect: the root has
a child named `a` (index 1), which has a child named `b` (index 2). -/
def pathBugOvl : OverlayBase :=
  { arena := [{ (default : WindowBase) with children := [1] },
              { (default : WindowBase) with name := ['a'], children := [2], parent := some 0 },
              { (default : WindowBase) with name := ['b'], parent := some 1 }]
    indices := []
    vbo := []
    should_update := []
    should_reindex := false }

/-- C4: `Window::child` of `single_thread.rs` fails on every
multi-segment path: on the tree root → `a` → `b`, the path `"a.b"`
resolves to nothing although `a` is an immediate child of the root and
`b` an immediate child of `a`. The recursion passes the rest of the path
*including* the leading `.` down, so the second segment is looked up as
the empty name. (The `window.rs` revision strips the separator and is not
affected.) -/
theorem child_multisegment_fails :
    child 9 pathBugOvl ROOT ['a', '.', 'b'] = none ∧
    findChild pathBugOvl ((window pathBugOvl ROOT).children) ['a'] = some 1 ∧
    findChild pathBugOvl ((window pathBugOvl 1).children) ['b'] = some 2 := by
  decide

end ClaimC4

end Overlay
